import Mathlib

/-!
# Status-code negotiation of openapi-mock

A shallow embedding of `internal/openapi/generator/negotiator/StatusCodeNegotiator.go`
and the properties of its two selection policies.

Conventions of the embedding:

* a Go `string` is a Lean `String`, read as its list of runes (`String.data`);
* a Go `int` is an `Int`; its width only matters inside `strconv.Atoi`, which
  takes the platform's `intSize` (32 or 64 in Go) as an explicit argument;
* a `(code, err)` pair whose `code` is only read when `err == nil` is an `Option Int`;
* `openapi3.Responses` is a Go map: only its keys are read here, and the order
  in which `range` enumerates them is unspecified, so a run of a `range` loop is
  given the list of keys in the order of that run;
* the draws of the random source are given by an oracle `rnd`.
-/

namespace Negotiator

/-! ## Library functions used by the negotiator -/

/-- Lower-case mapping of one rune (`unicode.ToLower`). The ASCII capitals move
to their small letters; U+0130 and U+212A are the only other runes whose
lower-case form is ASCII (`i` and `k`). Every remaining entry of the case
tables maps a non-ASCII rune to a non-ASCII rune, a difference no test of
`parseStatusCode` observes, so those runes are left in place. -/
def toLowerRune (c : Char) : Char :=
  if 65 ≤ c.toNat ∧ c.toNat ≤ 90 then Char.ofNat (c.toNat + 32)
  else if c.toNat = 0x130 then 'i'
  else if c.toNat = 0x212A then 'k'
  else c

/-- Go `strings.ToLower`: every rune of the string is lower-cased. -/
def ToLower (s : String) : String :=
  ⟨s.data.map toLowerRune⟩

/-- Value of a decimal digit, `none` for any other rune. -/
def digitValue (c : Char) : Option Nat :=
  if 48 ≤ c.toNat ∧ c.toNat ≤ 57 then some (c.toNat - 48) else none

/-- Digit loop of `strconv.ParseUint` in base 10: the accumulator is multiplied
by ten and the next digit added; a rune that is not a decimal digit is a syntax
error (`none`). -/
def parseDigits : List Char → Nat → Option Nat
  | [], acc => some acc
  | c :: cs, acc =>
    match digitValue c with
    | none => none
    | some d => parseDigits cs (acc * 10 + d)

/-- Go `strconv.ParseUint(s, 10, _)` without its range check: the empty string
is a syntax error. The range check is made by `ParseInt` on the unbounded
value, which rejects exactly the inputs Go rejects (an overflow of `uint64`
also exceeds the cutoff of `ParseInt`). -/
def ParseUint (s : List Char) : Option Nat :=
  match s with
  | [] => none
  | _ :: _ => parseDigits s 0

/-- Go `strconv.ParseInt(s, 10, intSize)` restricted to whether it succeeds:
an optional sign, at least one decimal digit, and a value that fits a signed
integer of `intSize` bits; `none` stands for a syntax or range error. -/
def ParseInt (intSize : Nat) (s : List Char) : Option Int :=
  match s with
  | [] => none
  | c :: cs =>
    let neg : Bool := decide (c = '-')
    let body := if c = '+' ∨ c = '-' then cs else c :: cs
    match ParseUint body with
    | none => none
    | some un =>
      let cutoff : Nat := 2 ^ (intSize - 1)
      if neg = false ∧ cutoff ≤ un then none
      else if neg = true ∧ cutoff < un then none
      else some (if neg then -(un : Int) else (un : Int))

/-- Go `strconv.Atoi`: `ParseInt(s, 10, 0)`, where bit size 0 means `int`. Its
fast path for short inputs computes the same result. -/
def Atoi (intSize : Nat) (s : String) : Option Int :=
  ParseInt intSize s.data

/-- One position of a compiled pattern: a literal rune or a rune range. -/
inductive CharClass where
  | lit (c : Char)
  | range (lo hi : Char)
  deriving DecidableEq, Repr

/-- Whether a rune is accepted at a position of the pattern. -/
def CharClass.accepts : CharClass → Char → Bool
  | .lit c, r => decide (r = c)
  | .range lo hi, r => decide (lo.toNat ≤ r.toNat ∧ r.toNat ≤ hi.toNat)

/-- A compiled pattern of the shape `^c₁c₂…cₙ$`: a sequence of positions
anchored at both ends of the text. -/
structure Regexp where
  positions : List CharClass
  deriving DecidableEq, Repr

/-- Anchored match of a rune list against a list of positions. -/
def matchPositions : List CharClass → List Char → Bool
  | [], [] => true
  | p :: ps, r :: rs => p.accepts r && matchPositions ps rs
  | _, _ => false

/-- Go `(*Regexp).MatchString` for an anchored pattern: the whole text is matched. -/
def Regexp.MatchString (re : Regexp) (s : String) : Bool :=
  matchPositions re.positions s.data

/-- Go `http.StatusInternalServerError`. -/
def StatusInternalServerError : Int := 500

/-- Go `math.MaxInt32`. -/
def MaxInt32 : Int := 2147483647

/-! ## The negotiator -/

/-- Errors of the package: the sentinel `ErrNoMatchingResponse` and the result
of `errors.Wrap(cause, message)`. -/
inductive GoError where
  | ErrNoMatchingResponse
  | Wrap (cause : GoError) (message : String)
  deriving DecidableEq, Repr

/-- The negotiator value built by `NewStatusCodeNegotiator`. -/
structure statusCodeNegotiator where
  randomResponse : Bool
  rangeDefinitionPattern : Regexp
  deriving DecidableEq, Repr

/-- Go `NewStatusCodeNegotiator`: the pattern is `regexp.MustCompile("^[1-5]xx$")`. -/
def NewStatusCodeNegotiator (randomResponse : Bool) : statusCodeNegotiator :=
  ⟨randomResponse, ⟨[.range '1' '5', .lit 'x', .lit 'x']⟩⟩

/-- Go `statusCodeNegotiator.parseStatusCode`. The key is lower-cased; `default`
is 500; a key matching the range pattern is `Atoi` of its first rune (the error
of that call is discarded, a failed `Atoi` yields 0) times 100; any other key
is `Atoi` of the whole key, whose error is the error of the call (`none`). The
warning written to the logger on failure is not part of the result. -/
def statusCodeNegotiator.parseStatusCode (negotiator : statusCodeNegotiator) (intSize : Nat)
    (key : String) : Option Int :=
  let key := ToLower key
  if key = "default" then
    some StatusInternalServerError
  else if negotiator.rangeDefinitionPattern.MatchString key then
    some ((Atoi intSize ⟨key.data.take 1⟩).getD 0 * 100)
  else
    Atoi intSize key

/-- The triple `(key string, code int, err error)` returned by a negotiation. -/
structure Negotiation where
  key : String
  code : Int
  err : Option GoError
  deriving DecidableEq, Repr

/-- The failure returned by both policies when no response matches. -/
def noMatchingResponse : Negotiation :=
  ⟨"", StatusInternalServerError,
    some (.Wrap .ErrNoMatchingResponse "[statusCodeNegotiator] failed to negotiate response")⟩

/-- Go `keys[i], keys[j] = keys[j], keys[i]`, the swap closure handed to
`rand.Shuffle`. Both indices are inside the slice whenever `Shuffle` calls it;
an index outside (a panic in Go) leaves the list as it is. -/
def swapKeys (keys : List String) (i j : Nat) : List String :=
  match keys[i]?, keys[j]? with
  | some a, some b => (keys.set i b).set j a
  | _, _ => keys

/-- Loop of Go `rand.Shuffle` (Fisher-Yates), counting `i` down to 1: at index
`i` the source draws `j` in `[0, i]` and positions `i` and `j` are swapped.
`rnd i` is the number the source yields at index `i`; it is reduced modulo
`i + 1` as `int31n(i + 1)` does. -/
def shuffleLoop (rnd : Nat → Nat) : Nat → List String → List String
  | 0, keys => keys
  | i + 1, keys => shuffleLoop rnd i (swapKeys keys (i + 1) (rnd (i + 1) % (i + 2)))

/-- Go `rand.Shuffle(n, swap)`: the loop starts at `i = n - 1`. -/
def Shuffle (rnd : Nat → Nat) (n : Nat) (keys : List String) : List String :=
  shuffleLoop rnd (n - 1) keys

/-- Scan of `randomCode` over the shuffled keys: a key that fails to parse is
skipped (`continue`), the first key that parses is returned with its code. -/
def statusCodeNegotiator.firstParsed (negotiator : statusCodeNegotiator) (intSize : Nat) :
    List String → Negotiation
  | [] => noMatchingResponse
  | key :: rest =>
    match negotiator.parseStatusCode intSize key with
    | none => negotiator.firstParsed intSize rest
    | some code => ⟨key, code, none⟩

/-- Go `statusCodeNegotiator.randomCode`. `responses` lists the keys of the map
in the order the `range` loop of this call enumerates them; `rnd` gives the
draws of the random source after `rand.Seed`. -/
def statusCodeNegotiator.randomCode (negotiator : statusCodeNegotiator) (intSize : Nat)
    (rnd : Nat → Nat) (responses : List String) : Negotiation :=
  let length := responses.length
  let keys := responses
  negotiator.firstParsed intSize (Shuffle rnd length keys)

/-- Local variables of `minSuccessOrErrorCode`. -/
structure MinState where
  minSuccessCode : Int
  minSuccessCodeKey : String
  hasSuccessCode : Bool
  minErrorCode : Int
  minErrorCodeKey : String
  hasErrorCode : Bool
  deriving DecidableEq, Repr

/-- Values of the local variables of `minSuccessOrErrorCode` before its loop. -/
def MinState.init : MinState :=
  ⟨MaxInt32, "", false, MaxInt32, "", false⟩

/-- One iteration of the loop of `minSuccessOrErrorCode`. -/
def statusCodeNegotiator.minStep (negotiator : statusCodeNegotiator) (intSize : Nat)
    (s : MinState) (key : String) : MinState :=
  match negotiator.parseStatusCode intSize key with
  | none => s
  | some code =>
    if 200 ≤ code ∧ code < 300 ∧ code < s.minSuccessCode then
      ⟨code, key, true, s.minErrorCode, s.minErrorCodeKey, s.hasErrorCode⟩
    else if code < s.minErrorCode then
      ⟨s.minSuccessCode, s.minSuccessCodeKey, s.hasSuccessCode, code, key, true⟩
    else
      s

/-- The returns that follow the loop of `minSuccessOrErrorCode`. -/
def MinState.result (s : MinState) : Negotiation :=
  if s.hasSuccessCode then
    ⟨s.minSuccessCodeKey, s.minSuccessCode, none⟩
  else if s.hasErrorCode then
    ⟨s.minErrorCodeKey, s.minErrorCode, none⟩
  else
    noMatchingResponse

/-- Go `statusCodeNegotiator.minSuccessOrErrorCode`. `responses` lists the keys
of the map in the order the `range` loop of this call enumerates them. -/
def statusCodeNegotiator.minSuccessOrErrorCode (negotiator : statusCodeNegotiator)
    (intSize : Nat) (responses : List String) : Negotiation :=
  (responses.foldl (negotiator.minStep intSize) MinState.init).result

/-- Go `statusCodeNegotiator.NegotiateStatusCode`. -/
def statusCodeNegotiator.NegotiateStatusCode (negotiator : statusCodeNegotiator)
    (intSize : Nat) (rnd : Nat → Nat) (responses : List String) : Negotiation :=
  if negotiator.randomResponse then
    negotiator.randomCode intSize rnd responses
  else
    negotiator.minSuccessOrErrorCode intSize responses

/-! ## Reference definition of key parsing -/

/-- Reference: the digit `d` of a range token, that is of a key made of exactly
one digit `d` in 1..5 followed by the two letters `xx`. -/
def rangeTokenDigit (k : List Char) : Option Int :=
  match k with
  | [d, x₁, x₂] =>
    if x₁ = 'x' ∧ x₂ = 'x' then
      if d = '1' then some 1
      else if d = '2' then some 2
      else if d = '3' then some 3
      else if d = '4' then some 4
      else if d = '5' then some 5
      else none
    else none
  | _ => none

/-- Reference: whether a rune is one of the ten decimal digits. -/
def isDecimalDigit (c : Char) : Bool :=
  decide (c ∈ ['0', '1', '2', '3', '4', '5', '6', '7', '8', '9'])

/-- Reference: the number a string of decimal digits denotes in base 10, most
significant digit first. -/
def decimalValue (digits : List Char) : Nat :=
  Nat.ofDigits 10 (digits.reverse.map (fun c => c.toNat - '0'.toNat))

/-- Reference: a base-10 integer literal is an optional sign `+` or `-` followed
by one or more decimal digits; its value is the integer it denotes. -/
def integerLiteral (k : List Char) : Option Int :=
  match k with
  | [] => none
  | c :: cs =>
    let digits := if c = '+' ∨ c = '-' then cs else c :: cs
    if digits ≠ [] ∧ digits.all isDecimalDigit = true then
      some (if c = '-' then -(decimalValue digits : Int) else (decimalValue digits : Int))
    else none

/-- Whether an integer fits a signed Go `int` of `intSize` bits. -/
def fitsInt (intSize : Nat) (v : Int) : Bool :=
  decide (-(2 : Int) ^ (intSize - 1) ≤ v ∧ v < (2 : Int) ^ (intSize - 1))

/-- Reference definition of key parsing, for a given reading `literal` of
"base-10 integer literal": with `k` the lower-cased key, `default` is 500; a
range token with digit `d` is `d * 100`; a literal is its value; anything else
is a parse error. -/
def referenceParse (literal : List Char → Option Int) (key : String) : Option Int :=
  let k := ToLower key
  if k = "default" then some 500
  else
    match rangeTokenDigit k.data with
    | some d => some (d * 100)
    | none => literal k.data

/-! ## Keys that differ only in letter case -/

/-- Whether `lo` is the small letter of the ASCII capital `up`. -/
def asciiCasePair (up lo : Char) : Bool :=
  decide (65 ≤ up.toNat ∧ up.toNat ≤ 90 ∧ lo.toNat = up.toNat + 32)

/-- Whether `c` is one of the four non-ASCII runes that Unicode pairs with an
ASCII letter, and `a` a case of that letter: U+212A with `k`, U+017F with `s`,
U+0130 and U+0131 with `i`. -/
def mixedCasePair (c a : Char) : Bool :=
  decide ((c.toNat = 0x212A ∧ (a = 'k' ∨ a = 'K')) ∨
    (c.toNat = 0x17F ∧ (a = 's' ∨ a = 'S')) ∨
    ((c.toNat = 0x130 ∨ c.toNat = 0x131) ∧ (a = 'i' ∨ a = 'I')))

/-- Whether two runes are equal or differ at most in letter case: the two cases
of an ASCII letter, a mixed pair, or two non-ASCII runes (every other case pair
of Unicode is a pair of non-ASCII runes). -/
def sameLetter (c c' : Char) : Bool :=
  decide (c = c') || asciiCasePair c c' || asciiCasePair c' c ||
    mixedCasePair c c' || mixedCasePair c' c ||
    decide (128 ≤ c.toNat ∧ 128 ≤ c'.toNat)

/-- Whether two rune lists have the same length and differ, position by
position, at most in letter case. -/
def differOnlyInCase : List Char → List Char → Bool
  | [], [] => true
  | c :: cs, c' :: cs' => sameLetter c c' && differOnlyInCase cs cs'
  | _, _ => false

/-- Runes that can occur in a lower-cased key that parses: the letters of
`default`, `x`, the signs and the decimal digits. -/
def keyRune (c : Char) : Bool :=
  decide (c ∈ ['d', 'e', 'f', 'a', 'u', 'l', 't', 'x', '+', '-']) || isDecimalDigit c

/-- Invariant of the loop of `minSuccessOrErrorCode` once the keys `seen` have
been visited. -/
structure MinInv (negotiator : statusCodeNegotiator) (intSize : Nat) (seen : List String)
    (s : MinState) : Prop where
  success_key : s.hasSuccessCode = true →
    s.minSuccessCodeKey ∈ seen ∧
    negotiator.parseStatusCode intSize s.minSuccessCodeKey = some s.minSuccessCode ∧
    200 ≤ s.minSuccessCode ∧ s.minSuccessCode < 300
  success_none : s.hasSuccessCode = false → s.minSuccessCode = MaxInt32
  success_le : ∀ k ∈ seen, ∀ c, negotiator.parseStatusCode intSize k = some c →
    200 ≤ c → c < 300 → s.minSuccessCode ≤ c
  error_key : s.hasErrorCode = true →
    s.minErrorCodeKey ∈ seen ∧
    negotiator.parseStatusCode intSize s.minErrorCodeKey = some s.minErrorCode ∧
    s.minErrorCode < MaxInt32
  error_none : s.hasErrorCode = false → s.minErrorCode = MaxInt32
  error_le : ∀ k ∈ seen, ∀ c, negotiator.parseStatusCode intSize k = some c →
    ¬(200 ≤ c ∧ c < 300) → s.minErrorCode ≤ c

/-- Which key the loop of `minSuccessOrErrorCode` holds once the keys `seen` have
been visited: the tracked key is the first key of `seen` that parses to the
tracked code (for the second tracker, as long as no success code was seen). -/
structure MinFirst (negotiator : statusCodeNegotiator) (intSize : Nat) (seen : List String)
    (s : MinState) : Prop where
  success_first : s.hasSuccessCode = true →
    ∃ pre post, seen = pre ++ s.minSuccessCodeKey :: post ∧
      ∀ x ∈ pre, negotiator.parseStatusCode intSize x ≠ some s.minSuccessCode
  error_first : s.hasSuccessCode = false → s.hasErrorCode = true →
    ∃ pre post, seen = pre ++ s.minErrorCodeKey :: post ∧
      ∀ x ∈ pre, negotiator.parseStatusCode intSize x ≠ some s.minErrorCode

/-! ## Variant of the deterministic loop -/

/-- Variant of one iteration of the loop of `minSuccessOrErrorCode` in which the
else-branch is taken only for codes outside `[200, 300)`: a code inside the
range either becomes the new success minimum or changes nothing. -/
def statusCodeNegotiator.minStepSeparate (negotiator : statusCodeNegotiator) (intSize : Nat)
    (s : MinState) (key : String) : MinState :=
  match negotiator.parseStatusCode intSize key with
  | none => s
  | some code =>
    if 200 ≤ code ∧ code < 300 then
      if code < s.minSuccessCode then
        ⟨code, key, true, s.minErrorCode, s.minErrorCodeKey, s.hasErrorCode⟩
      else
        s
    else if code < s.minErrorCode then
      ⟨s.minSuccessCode, s.minSuccessCodeKey, s.hasSuccessCode, code, key, true⟩
    else
      s

/-- Variant of `minSuccessOrErrorCode` built on `minStepSeparate`. -/
def statusCodeNegotiator.minSuccessOrErrorCodeSeparate (negotiator : statusCodeNegotiator)
    (intSize : Nat) (responses : List String) : Negotiation :=
  (responses.foldl (negotiator.minStepSeparate intSize) MinState.init).result

/-- How the state `s` of the loop of `minSuccessOrErrorCode` relates to the state
`t` of its variant after the same keys: the success trackers agree, and so do
the other trackers as long as no success code was seen. -/
structure MinSim (s t : MinState) : Prop where
  success_code : s.minSuccessCode = t.minSuccessCode
  success_key : s.minSuccessCodeKey = t.minSuccessCodeKey
  success_flag : s.hasSuccessCode = t.hasSuccessCode
  success_none : s.hasSuccessCode = false → s.minSuccessCode = MaxInt32
  error_same : s.hasSuccessCode = false →
    s.minErrorCode = t.minErrorCode ∧ s.minErrorCodeKey = t.minErrorCodeKey ∧
    s.hasErrorCode = t.hasErrorCode

/-! ## The response generator -/

/-- The value built by `generator.New`: its three collaborators. The content-type
negotiator and the content generator are declared in other packages; their
types are the parameters `C` and `G`. -/
structure coordinatingGenerator (C G : Type) where
  contentTypeNegotiator : C
  statusCodeNegotiator : Negotiator.statusCodeNegotiator
  contentGenerator : G

/-- Go `generator.New`. `NewContentTypeNegotiator` and `NewGenerator` stand for
`negotiator.NewContentTypeNegotiator()` and `content.NewGenerator`, which are
declared outside the negotiator source. -/
def New {D C G : Type} (NewContentTypeNegotiator : C) (NewGenerator : D → G)
    (dataGenerator : D) (randomResponse : Bool) : coordinatingGenerator C G :=
  ⟨NewContentTypeNegotiator, NewStatusCodeNegotiator randomResponse, NewGenerator dataGenerator⟩

/-! ## Key parsing against its reference definition -/

/-- A rune is determined by its code point. -/
theorem char_eq_ofNat (c : Char) (n : Nat) (h : c.toNat = n) : c = Char.ofNat n := by
  rw [← h, Char.ofNat_toNat]

/-- The ten decimal digits are the runes with code points 48 to 57. -/
theorem isDecimalDigit_iff (c : Char) :
    isDecimalDigit c = true ↔ 48 ≤ c.toNat ∧ c.toNat ≤ 57 := by
  unfold isDecimalDigit
  rw [decide_eq_true_iff]
  constructor
  · intro h
    simp only [List.mem_cons, List.mem_singleton, List.not_mem_nil, or_false] at h
    rcases h with h | h | h | h | h | h | h | h | h | h <;> subst h <;> decide
  · intro ⟨h1, h2⟩
    have hc := char_eq_ofNat c c.toNat rfl
    generalize c.toNat = n at h1 h2 hc
    subst hc
    interval_cases n <;> decide

/-- The digit test of `ParseUint` agrees with the reference digits. -/
theorem digitValue_eq (c : Char) :
    digitValue c = if isDecimalDigit c = true then some (c.toNat - '0'.toNat) else none := by
  unfold digitValue
  by_cases h : 48 ≤ c.toNat ∧ c.toNat ≤ 57
  · rw [if_pos h, if_pos ((isDecimalDigit_iff c).2 h)]
    rfl
  · rw [if_neg h, if_neg (fun hd => h ((isDecimalDigit_iff c).1 hd))]

/-- The digit loop accepts exactly the strings of decimal digits and computes
the number they denote. -/
theorem parseDigits_eq (digits : List Char) :
    ∀ acc : Nat, parseDigits digits acc =
      if digits.all isDecimalDigit = true then
        some (acc * 10 ^ digits.length + decimalValue digits)
      else none := by
  induction digits with
  | nil => intro acc; simp [parseDigits, decimalValue]
  | cons c cs ih =>
    intro acc
    simp only [parseDigits, digitValue_eq]
    by_cases hc : isDecimalDigit c = true
    · simp only [hc, if_true, ih, List.all_cons, Bool.true_and]
      by_cases hcs : cs.all isDecimalDigit = true
      · simp only [hcs, if_true, Option.some.injEq]
        simp only [decimalValue, List.reverse_cons, List.map_append, List.map_cons, List.map_nil,
          Nat.ofDigits_append, Nat.ofDigits_singleton, List.length_map, List.length_reverse,
          List.length_cons]
        ring
      · simp only [hcs]
        rfl
    · simp [hc]

/-- `ParseUint` accepts exactly the non-empty strings of decimal digits. -/
theorem ParseUint_eq (digits : List Char) :
    ParseUint digits =
      if digits ≠ [] ∧ digits.all isDecimalDigit = true then some (decimalValue digits)
      else none := by
  cases digits with
  | nil => simp [ParseUint]
  | cons c cs =>
    simp only [ParseUint, parseDigits_eq, ne_eq, reduceCtorEq, not_false_eq_true, true_and,
      Nat.zero_mul, Nat.zero_add]

/-- `ParseInt` accepts exactly the integer literals whose value fits the `int`
of the platform, and returns that value. -/
theorem ParseInt_eq (intSize : Nat) (k : List Char) :
    ParseInt intSize k = (integerLiteral k).filter (fitsInt intSize) := by
  cases k with
  | nil => rfl
  | cons c cs =>
    simp only [ParseInt, integerLiteral, ParseUint_eq]
    by_cases hd : (if c = '+' ∨ c = '-' then cs else c :: cs) ≠ [] ∧
        (if c = '+' ∨ c = '-' then cs else c :: cs).all isDecimalDigit = true
    · rw [if_pos hd, if_pos hd]
      have hcast : ((2 ^ (intSize - 1) : Nat) : Int) = (2 : Int) ^ (intSize - 1) := by
        push_cast
        rfl
      simp only [Option.filter, fitsInt, ← hcast]
      generalize decimalValue (if c = '+' ∨ c = '-' then cs else c :: cs) = un
      have hpos : 0 < 2 ^ (intSize - 1) := Nat.pow_pos (by norm_num)
      generalize 2 ^ (intSize - 1) = cutoff at hpos ⊢
      by_cases hneg : c = '-'
      · simp only [hneg, decide_True, if_true, Bool.true_eq_false, false_and, if_false,
          true_and]
        by_cases hlt : cutoff < un
        · rw [if_pos hlt, if_neg]
          rw [decide_eq_true_iff]
          omega
        · rw [if_neg hlt, if_pos]
          rw [decide_eq_true_iff]
          omega
      · simp only [hneg, decide_False, if_false, Bool.false_eq_true, false_and, true_and]
        by_cases hle : cutoff ≤ un
        · rw [if_pos hle, if_neg]
          rw [decide_eq_true_iff]
          omega
        · rw [if_neg hle, if_pos]
          rw [decide_eq_true_iff]
          omega
    · rw [if_neg hd, if_neg hd]
      rfl

/-- A non-negative value below `2 ^ 31` fits every `int` of at least 32 bits. -/
theorem fitsInt_small (intSize : Nat) (hsize : 32 ≤ intSize) (v : Int) (h0 : 0 ≤ v)
    (h1 : v < 2147483648) : fitsInt intSize v = true := by
  unfold fitsInt
  rw [decide_eq_true_iff]
  have hp : (2 : Int) ^ 31 ≤ (2 : Int) ^ (intSize - 1) :=
    pow_le_pow_right₀ (by norm_num) (by omega)
  have h31 : (2 : Int) ^ 31 = 2147483648 := by norm_num
  constructor <;> omega

/-- The range pattern matches exactly the range tokens, and `Atoi` of the first
rune of a range token is its digit. -/
theorem rangePattern_eq (randomResponse : Bool) (intSize : Nat) (hsize : 32 ≤ intSize)
    (k : String) :
    (if (NewStatusCodeNegotiator randomResponse).rangeDefinitionPattern.MatchString k = true
      then some ((Atoi intSize ⟨k.data.take 1⟩).getD 0) else none)
      = rangeTokenDigit k.data := by
  have hm : (NewStatusCodeNegotiator randomResponse).rangeDefinitionPattern.MatchString k =
      matchPositions [.range '1' '5', .lit 'x', .lit 'x'] k.data := rfl
  rw [hm]
  unfold Atoi
  simp only [ParseInt_eq]
  generalize k.data = l
  match l with
  | [] => rfl
  | [_] => simp [matchPositions, rangeTokenDigit]
  | [_, _] => simp [matchPositions, rangeTokenDigit]
  | _ :: _ :: _ :: _ :: _ => simp [matchPositions, rangeTokenDigit]
  | [d, x₁, x₂] =>
    simp only [matchPositions, CharClass.accepts, rangeTokenDigit, Bool.and_true,
      Bool.and_eq_true, decide_eq_true_eq, List.take_succ_cons, List.take_zero]
    by_cases hx : x₁ = 'x' ∧ x₂ = 'x'
    · by_cases hr : '1'.toNat ≤ d.toNat ∧ d.toNat ≤ '5'.toNat
      · have hfit : ∀ v : Int, 0 ≤ v → v < 2147483648 → fitsInt intSize v = true :=
          fitsInt_small intSize hsize
        rw [if_pos ⟨hr, hx⟩, if_pos hx]
        have hc := char_eq_ofNat d d.toNat rfl
        obtain ⟨h1, h2⟩ := hr
        have h1' : 49 ≤ d.toNat := h1
        have h2' : d.toNat ≤ 53 := h2
        generalize d.toNat = n at h1' h2' hc
        subst hc
        interval_cases n
        · have e : integerLiteral [Char.ofNat 49] = some 1 := by decide
          rw [e]
          simp [Option.filter, hfit 1]
        · have e : integerLiteral [Char.ofNat 50] = some 2 := by decide
          rw [e]
          simp [Option.filter, hfit 2]
        · have e : integerLiteral [Char.ofNat 51] = some 3 := by decide
          rw [e]
          simp [Option.filter, hfit 3]
        · have e : integerLiteral [Char.ofNat 52] = some 4 := by decide
          rw [e]
          simp [Option.filter, hfit 4]
        · have e : integerLiteral [Char.ofNat 53] = some 5 := by decide
          rw [e]
          simp [Option.filter, hfit 5]
      · rw [if_neg (fun h => hr h.1), if_pos hx]
        have hne : ∀ c : Char, '1'.toNat ≤ c.toNat ∧ c.toNat ≤ '5'.toNat → d ≠ c := by
          intro c hc e
          exact hr (e ▸ hc)
        rw [if_neg (hne '1' (by decide)), if_neg (hne '2' (by decide)),
          if_neg (hne '3' (by decide)), if_neg (hne '4' (by decide)),
          if_neg (hne '5' (by decide))]
    · rw [if_neg (fun h => hx h.2), if_neg hx]

/-! ## Letter case -/

/-- Every rune of the key alphabet is ASCII. -/
theorem keyRune_ascii (c : Char) (h : keyRune c = true) : c.toNat < 128 := by
  unfold keyRune at h
  rcases Bool.or_eq_true_iff.1 h with h | h
  · rw [decide_eq_true_iff] at h
    simp only [List.mem_cons, List.mem_singleton, List.not_mem_nil, or_false] at h
    rcases h with h | h | h | h | h | h | h | h | h | h <;> subst h <;> decide
  · have := (isDecimalDigit_iff c).1 h
    omega

/-- The small letter of an ASCII capital is the lower-case form of both. -/
theorem toLowerRune_asciiCasePair (up lo : Char) (h : asciiCasePair up lo = true) :
    toLowerRune up = lo ∧ toLowerRune lo = lo := by
  unfold asciiCasePair at h
  rw [decide_eq_true_iff] at h
  obtain ⟨h1, h2, h3⟩ := h
  constructor
  · unfold toLowerRune
    rw [if_pos ⟨h1, h2⟩, ← h3, Char.ofNat_toNat]
  · unfold toLowerRune
    rw [if_neg (by omega), if_neg (by omega), if_neg (by omega)]

/-- The lower-case form of a non-ASCII rune is outside the key alphabet. -/
theorem keyRune_toLowerRune_of_nonAscii (c : Char) (h : 128 ≤ c.toNat) :
    keyRune (toLowerRune c) = false := by
  unfold toLowerRune
  rw [if_neg (by omega)]
  split
  · decide
  · split
    · decide
    · cases hk : keyRune c with
      | false => rfl
      | true =>
        have := keyRune_ascii c hk
        omega

/-- Both runes of a mixed pair have a lower-case form outside the key alphabet. -/
theorem keyRune_toLowerRune_of_mixed (c a : Char) (h : mixedCasePair c a = true) :
    keyRune (toLowerRune c) = false ∧ keyRune (toLowerRune a) = false := by
  unfold mixedCasePair at h
  rw [decide_eq_true_iff] at h
  constructor
  · apply keyRune_toLowerRune_of_nonAscii
    rcases h with ⟨h, _⟩ | ⟨h, _⟩ | ⟨h | h, _⟩ <;> omega
  · rcases h with ⟨_, h | h⟩ | ⟨_, h | h⟩ | ⟨_, h | h⟩ <;> subst h <;> decide

/-- Two runes that differ at most in letter case have the same lower-case form,
or both have a lower-case form outside the key alphabet. -/
theorem sameLetter_lower (c c' : Char) (h : sameLetter c c' = true) :
    toLowerRune c = toLowerRune c' ∨
    (keyRune (toLowerRune c) = false ∧ keyRune (toLowerRune c') = false) := by
  unfold sameLetter at h
  simp only [Bool.or_eq_true, decide_eq_true_eq] at h
  rcases h with ((((h | h) | h) | h) | h) | h
  · left; rw [h]
  · left
    obtain ⟨a, b⟩ := toLowerRune_asciiCasePair c c' h
    rw [a, b]
  · left
    obtain ⟨a, b⟩ := toLowerRune_asciiCasePair c' c h
    rw [a, b]
  · right; exact keyRune_toLowerRune_of_mixed c c' h
  · right; exact (keyRune_toLowerRune_of_mixed c' c h).symm
  · right
    exact ⟨keyRune_toLowerRune_of_nonAscii c h.1, keyRune_toLowerRune_of_nonAscii c' h.2⟩

/-- Two keys that differ only in letter case have the same lower-case form, or
the lower-case form of each holds a rune outside the key alphabet. -/
theorem differOnlyInCase_lower (l : List Char) :
    ∀ l' : List Char, differOnlyInCase l l' = true →
      l.map toLowerRune = l'.map toLowerRune ∨
      ((∃ c ∈ l.map toLowerRune, keyRune c = false) ∧
        (∃ c ∈ l'.map toLowerRune, keyRune c = false)) := by
  induction l with
  | nil =>
    intro l' h
    cases l' with
    | nil => left; rfl
    | cons _ _ => simp [differOnlyInCase] at h
  | cons c cs ih =>
    intro l' h
    cases l' with
    | nil => simp [differOnlyInCase] at h
    | cons c' cs' =>
      simp only [differOnlyInCase, Bool.and_eq_true] at h
      obtain ⟨hc, hcs⟩ := h
      rcases ih cs' hcs with e | ⟨⟨x, hx, hxd⟩, ⟨y, hy, hyd⟩⟩
      · rcases sameLetter_lower c c' hc with e1 | ⟨d1, d2⟩
        · left
          simp only [List.map_cons, e1, e]
        · right
          exact ⟨⟨_, List.mem_cons_self _ _, d1⟩, ⟨_, List.mem_cons_self _ _, d2⟩⟩
      · right
        exact ⟨⟨x, List.mem_cons_of_mem _ hx, hxd⟩, ⟨y, List.mem_cons_of_mem _ hy, hyd⟩⟩

/-- A key that parses has a lower-case form made of runes of the key alphabet. -/
theorem keyRune_of_parsed (negotiator : statusCodeNegotiator) (intSize : Nat)
    (hpat : negotiator.rangeDefinitionPattern = ⟨[.range '1' '5', .lit 'x', .lit 'x']⟩)
    (key : String) (code : Int) (h : negotiator.parseStatusCode intSize key = some code) :
    ∀ c ∈ (ToLower key).data, keyRune c = true := by
  unfold statusCodeNegotiator.parseStatusCode at h
  simp only at h
  by_cases hdef : ToLower key = "default"
  · rw [hdef]
    decide
  · rw [if_neg hdef] at h
    by_cases hm : negotiator.rangeDefinitionPattern.MatchString (ToLower key) = true
    · rw [hpat] at hm
      unfold Regexp.MatchString at hm
      simp only at hm
      generalize (ToLower key).data = l at hm
      match l with
      | [] => simp [matchPositions] at hm
      | [_] => simp [matchPositions] at hm
      | [_, _] => simp [matchPositions] at hm
      | _ :: _ :: _ :: _ :: _ => simp [matchPositions] at hm
      | [d, x₁, x₂] =>
        simp only [matchPositions, CharClass.accepts, Bool.and_true, Bool.and_eq_true,
          decide_eq_true_eq] at hm
        obtain ⟨⟨h1, h2⟩, hx1, hx2⟩ := hm
        have h1' : 49 ≤ d.toNat := h1
        have h2' : d.toNat ≤ 53 := h2
        have hd : keyRune d = true := by
          unfold keyRune
          rw [(isDecimalDigit_iff d).2 ⟨by omega, by omega⟩, Bool.or_true]
        intro c hc
        simp only [List.mem_cons, List.mem_singleton, List.not_mem_nil, or_false] at hc
        rcases hc with hc | hc | hc
        · rw [hc]; exact hd
        · rw [hc, hx1]; decide
        · rw [hc, hx2]; decide
    · rw [if_neg hm] at h
      unfold Atoi at h
      rw [ParseInt_eq] at h
      generalize (ToLower key).data = l at h
      cases l with
      | nil => simp [integerLiteral, Option.filter] at h
      | cons a rest =>
        unfold integerLiteral at h
        simp only at h
        by_cases hd : (if a = '+' ∨ a = '-' then rest else a :: rest) ≠ [] ∧
            (if a = '+' ∨ a = '-' then rest else a :: rest).all isDecimalDigit = true
        · have hall := hd.2
          have hdigit : ∀ c ∈ (if a = '+' ∨ a = '-' then rest else a :: rest),
              keyRune c = true := by
            intro c hc
            unfold keyRune
            rw [List.all_eq_true.1 hall c hc, Bool.or_true]
          by_cases hs : a = '+' ∨ a = '-'
          · rw [if_pos hs] at hdigit
            intro c hc
            rcases List.mem_cons.1 hc with hc | hc
            · rcases hs with hs | hs <;> rw [hc, hs] <;> decide
            · exact hdigit c hc
          · rw [if_neg hs] at hdigit
            exact hdigit
        · rw [if_neg hd] at h
          simp [Option.filter] at h

/-! ## The deterministic policy: loop invariant -/

theorem minInv_init (negotiator : statusCodeNegotiator) (intSize : Nat) :
    MinInv negotiator intSize [] MinState.init := by
  constructor <;> simp [MinState.init]

theorem minInv_step (negotiator : statusCodeNegotiator) (intSize : Nat) (seen : List String)
    (s : MinState) (key : String) (h : MinInv negotiator intSize seen s) :
    MinInv negotiator intSize (seen ++ [key]) (negotiator.minStep intSize s key) := by
  obtain ⟨h1, h2, h3, h4, h5, h6⟩ := h
  unfold statusCodeNegotiator.minStep
  cases hp : negotiator.parseStatusCode intSize key with
  | none =>
    simp only
    refine ⟨?_, h2, ?_, ?_, h5, ?_⟩
    · intro hs
      obtain ⟨a, b, c⟩ := h1 hs
      exact ⟨List.mem_append_left _ a, b, c⟩
    · intro k hk c hc
      rcases List.mem_append.1 hk with hk | hk
      · exact h3 k hk c hc
      · rw [List.mem_singleton.1 hk, hp] at hc
        cases hc
    · intro he
      obtain ⟨a, b, c⟩ := h4 he
      exact ⟨List.mem_append_left _ a, b, c⟩
    · intro k hk c hc
      rcases List.mem_append.1 hk with hk | hk
      · exact h6 k hk c hc
      · rw [List.mem_singleton.1 hk, hp] at hc
        cases hc
  | some code =>
    simp only
    by_cases hA : 200 ≤ code ∧ code < 300 ∧ code < s.minSuccessCode
    · rw [if_pos hA]
      refine ⟨?_, ?_, ?_, ?_, h5, ?_⟩
      · intro _
        exact ⟨by simp, hp, hA.1, hA.2.1⟩
      · intro hs
        cases hs
      · intro k hk c hc hlo hhi
        rcases List.mem_append.1 hk with hk | hk
        · have := h3 k hk c hc hlo hhi
          show code ≤ c
          omega
        · rw [List.mem_singleton.1 hk, hp] at hc
          cases hc
          exact le_refl _
      · intro he
        obtain ⟨a, b, c⟩ := h4 he
        exact ⟨List.mem_append_left _ a, b, c⟩
      · intro k hk c hc hn
        rcases List.mem_append.1 hk with hk | hk
        · exact h6 k hk c hc hn
        · rw [List.mem_singleton.1 hk, hp] at hc
          cases hc
          exact absurd ⟨hA.1, hA.2.1⟩ hn
    · rw [if_neg hA]
      by_cases hB : code < s.minErrorCode
      · rw [if_pos hB]
        have hlt : code < MaxInt32 := by
          cases he : s.hasErrorCode with
          | false => rw [← h5 he]; exact hB
          | true => have := (h4 he).2.2; omega
        refine ⟨?_, h2, ?_, ?_, ?_, ?_⟩
        · intro hs
          obtain ⟨a, b, c⟩ := h1 hs
          exact ⟨List.mem_append_left _ a, b, c⟩
        · intro k hk c hc hlo hhi
          rcases List.mem_append.1 hk with hk | hk
          · exact h3 k hk c hc hlo hhi
          · rw [List.mem_singleton.1 hk, hp] at hc
            cases hc
            show s.minSuccessCode ≤ code
            omega
        · intro _
          exact ⟨by simp, hp, hlt⟩
        · intro he
          cases he
        · intro k hk c hc hn
          rcases List.mem_append.1 hk with hk | hk
          · have := h6 k hk c hc hn
            show code ≤ c
            omega
          · rw [List.mem_singleton.1 hk, hp] at hc
            cases hc
            exact le_refl _
      · rw [if_neg hB]
        refine ⟨?_, h2, ?_, ?_, h5, ?_⟩
        · intro hs
          obtain ⟨a, b, c⟩ := h1 hs
          exact ⟨List.mem_append_left _ a, b, c⟩
        · intro k hk c hc hlo hhi
          rcases List.mem_append.1 hk with hk | hk
          · exact h3 k hk c hc hlo hhi
          · rw [List.mem_singleton.1 hk, hp] at hc
            cases hc
            omega
        · intro he
          obtain ⟨a, b, c⟩ := h4 he
          exact ⟨List.mem_append_left _ a, b, c⟩
        · intro k hk c hc hn
          rcases List.mem_append.1 hk with hk | hk
          · exact h6 k hk c hc hn
          · rw [List.mem_singleton.1 hk, hp] at hc
            cases hc
            omega

theorem minInv_foldl (negotiator : statusCodeNegotiator) (intSize : Nat) (rest : List String) :
    ∀ (seen : List String) (s : MinState), MinInv negotiator intSize seen s →
      MinInv negotiator intSize (seen ++ rest) (rest.foldl (negotiator.minStep intSize) s) := by
  induction rest with
  | nil => intro seen s h; simpa using h
  | cons key rest ih =>
    intro seen s h
    have := ih (seen ++ [key]) _ (minInv_step negotiator intSize seen s key h)
    simpa using this

/-- The loop invariant holds for the state in which the loop of
`minSuccessOrErrorCode` ends. -/
theorem minInv_final (negotiator : statusCodeNegotiator) (intSize : Nat)
    (responses : List String) :
    MinInv negotiator intSize responses
      (responses.foldl (negotiator.minStep intSize) MinState.init) := by
  simpa using minInv_foldl negotiator intSize responses [] _ (minInv_init negotiator intSize)

/-! ## The deterministic policy: what the loop returns -/

/-- When some key parses to a code in `[200, 300)`, the deterministic scan
returns without error a key of the set, its code, and that code is the least
code in `[200, 300)`. -/
theorem minSuccessOrErrorCode_success (negotiator : statusCodeNegotiator) (intSize : Nat)
    (responses : List String)
    (h : ∃ k ∈ responses, ∃ c, negotiator.parseStatusCode intSize k = some c ∧
      200 ≤ c ∧ c < 300) :
    (negotiator.minSuccessOrErrorCode intSize responses).err = none ∧
    (negotiator.minSuccessOrErrorCode intSize responses).key ∈ responses ∧
    negotiator.parseStatusCode intSize (negotiator.minSuccessOrErrorCode intSize responses).key
      = some (negotiator.minSuccessOrErrorCode intSize responses).code ∧
    200 ≤ (negotiator.minSuccessOrErrorCode intSize responses).code ∧
    (negotiator.minSuccessOrErrorCode intSize responses).code < 300 ∧
    ∀ k ∈ responses, ∀ c, negotiator.parseStatusCode intSize k = some c → 200 ≤ c → c < 300 →
      (negotiator.minSuccessOrErrorCode intSize responses).code ≤ c := by
  have inv := minInv_final negotiator intSize responses
  obtain ⟨k, hk, c, hc, hlo, hhi⟩ := h
  have hs : (responses.foldl (negotiator.minStep intSize) MinState.init).hasSuccessCode
      = true := by
    cases hb : (responses.foldl (negotiator.minStep intSize) MinState.init).hasSuccessCode with
    | true => rfl
    | false =>
      have h1 := inv.success_none hb
      have h2 := inv.success_le k hk c hc hlo hhi
      rw [h1] at h2
      simp only [MaxInt32] at h2
      omega
  obtain ⟨a, b, c1, c2⟩ := inv.success_key hs
  have hr : negotiator.minSuccessOrErrorCode intSize responses =
      ⟨(responses.foldl (negotiator.minStep intSize) MinState.init).minSuccessCodeKey,
       (responses.foldl (negotiator.minStep intSize) MinState.init).minSuccessCode, none⟩ := by
    simp [statusCodeNegotiator.minSuccessOrErrorCode, MinState.result, hs]
  rw [hr]
  exact ⟨rfl, a, b, c1, c2, inv.success_le⟩

/-- When no key parses to a code in `[200, 300)`, the scan never sets
`hasSuccessCode`. -/
theorem hasSuccessCode_false (negotiator : statusCodeNegotiator) (intSize : Nat)
    (responses : List String)
    (h : ∀ k ∈ responses, ∀ c, negotiator.parseStatusCode intSize k = some c →
      ¬(200 ≤ c ∧ c < 300)) :
    (responses.foldl (negotiator.minStep intSize) MinState.init).hasSuccessCode = false := by
  have inv := minInv_final negotiator intSize responses
  cases hb : (responses.foldl (negotiator.minStep intSize) MinState.init).hasSuccessCode with
  | false => rfl
  | true =>
    obtain ⟨a, b, c1, c2⟩ := inv.success_key hb
    exact absurd ⟨c1, c2⟩ (h _ a _ b)

/-- When no key parses to a code in `[200, 300)` and some key parses to a code
below `math.MaxInt32`, the deterministic scan returns without error a key of the
set, its code, and that code is the least of all parsed codes. -/
theorem minSuccessOrErrorCode_error (negotiator : statusCodeNegotiator) (intSize : Nat)
    (responses : List String)
    (hno : ∀ k ∈ responses, ∀ c, negotiator.parseStatusCode intSize k = some c →
      ¬(200 ≤ c ∧ c < 300))
    (h : ∃ k ∈ responses, ∃ c, negotiator.parseStatusCode intSize k = some c ∧ c < MaxInt32) :
    (negotiator.minSuccessOrErrorCode intSize responses).err = none ∧
    (negotiator.minSuccessOrErrorCode intSize responses).key ∈ responses ∧
    negotiator.parseStatusCode intSize (negotiator.minSuccessOrErrorCode intSize responses).key
      = some (negotiator.minSuccessOrErrorCode intSize responses).code ∧
    ∀ k ∈ responses, ∀ c, negotiator.parseStatusCode intSize k = some c →
      (negotiator.minSuccessOrErrorCode intSize responses).code ≤ c := by
  have inv := minInv_final negotiator intSize responses
  have hs := hasSuccessCode_false negotiator intSize responses hno
  obtain ⟨k, hk, c, hc, hlt⟩ := h
  have he : (responses.foldl (negotiator.minStep intSize) MinState.init).hasErrorCode
      = true := by
    cases hb : (responses.foldl (negotiator.minStep intSize) MinState.init).hasErrorCode with
    | true => rfl
    | false =>
      have h1 := inv.error_none hb
      have h2 := inv.error_le k hk c hc (hno k hk c hc)
      rw [h1] at h2
      omega
  obtain ⟨a, b, _⟩ := inv.error_key he
  have hr : negotiator.minSuccessOrErrorCode intSize responses =
      ⟨(responses.foldl (negotiator.minStep intSize) MinState.init).minErrorCodeKey,
       (responses.foldl (negotiator.minStep intSize) MinState.init).minErrorCode, none⟩ := by
    simp [statusCodeNegotiator.minSuccessOrErrorCode, MinState.result, hs, he]
  rw [hr]
  exact ⟨rfl, a, b, fun k hk c hc => inv.error_le k hk c hc (hno k hk c hc)⟩

/-- When every parsed code is at least `math.MaxInt32`, the deterministic scan
sets neither flag and returns the failure. -/
theorem minSuccessOrErrorCode_fail (negotiator : statusCodeNegotiator) (intSize : Nat)
    (responses : List String)
    (h : ∀ k ∈ responses, ∀ c, negotiator.parseStatusCode intSize k = some c → MaxInt32 ≤ c) :
    negotiator.minSuccessOrErrorCode intSize responses = noMatchingResponse := by
  have inv := minInv_final negotiator intSize responses
  have hs : (responses.foldl (negotiator.minStep intSize) MinState.init).hasSuccessCode
      = false := by
    apply hasSuccessCode_false
    intro k hk c hc hr
    have := h k hk c hc
    simp only [MaxInt32] at this
    omega
  have he : (responses.foldl (negotiator.minStep intSize) MinState.init).hasErrorCode
      = false := by
    cases hb : (responses.foldl (negotiator.minStep intSize) MinState.init).hasErrorCode with
    | false => rfl
    | true =>
      obtain ⟨a, b, c⟩ := inv.error_key hb
      have := h _ a _ b
      omega
  simp [statusCodeNegotiator.minSuccessOrErrorCode, MinState.result, hs, he]

/-! ## The random policy: shuffle and scan -/

/-- Swapping two positions rearranges the keys and neither adds nor drops one. -/
theorem swapKeys_perm (keys : List String) (i j : Nat) : (swapKeys keys i j).Perm keys := by
  unfold swapKeys
  cases hi : keys[i]? with
  | none => exact List.Perm.refl _
  | some a =>
    cases hj : keys[j]? with
    | none => exact List.Perm.refl _
    | some b =>
      obtain ⟨hil, hia⟩ := List.getElem?_eq_some.1 hi
      obtain ⟨hjl, hjb⟩ := List.getElem?_eq_some.1 hj
      simp only
      rw [List.perm_iff_count]
      intro x
      have hjl2 : j < (keys.set i b).length := by simpa using hjl
      have hget : (keys.set i b)[j] = b := by
        rw [List.getElem_set]
        split
        · rfl
        · exact hjb
      rw [List.count_set _ _ _ _ hjl2, hget, List.count_set _ _ _ _ hil, hia]
      have hmem : a ∈ keys := hia ▸ List.getElem_mem hil
      have hcnt : 0 < keys.count a := List.count_pos_iff.2 hmem
      by_cases hax : a = x
      · subst hax
        by_cases hbx : b = a
        · simp [hbx]; omega
        · simp [hbx]; omega
      · by_cases hbx : b = x
        · simp [hax, hbx]
        · simp [hax, hbx]

theorem shuffleLoop_perm (rnd : Nat → Nat) (i : Nat) :
    ∀ keys : List String, (shuffleLoop rnd i keys).Perm keys := by
  induction i with
  | zero => intro keys; exact List.Perm.refl _
  | succ i ih =>
    intro keys
    exact (ih _).trans (swapKeys_perm keys _ _)

/-- Whatever the random source draws, `rand.Shuffle` yields a permutation of
the keys. -/
theorem Shuffle_perm (rnd : Nat → Nat) (n : Nat) (keys : List String) :
    (Shuffle rnd n keys).Perm keys :=
  shuffleLoop_perm rnd (n - 1) keys

/-- The scan fails when no key of the list parses. -/
theorem firstParsed_none (negotiator : statusCodeNegotiator) (intSize : Nat)
    (keys : List String) (h : ∀ k ∈ keys, negotiator.parseStatusCode intSize k = none) :
    negotiator.firstParsed intSize keys = noMatchingResponse := by
  induction keys with
  | nil => rfl
  | cons key rest ih =>
    have hk := h key (List.mem_cons_self _ _)
    simp only [statusCodeNegotiator.firstParsed, hk]
    exact ih (fun k hk => h k (List.mem_cons_of_mem _ hk))

/-- The scan skips a prefix of keys that fail to parse and returns the key that
follows it when that key parses. -/
theorem firstParsed_append (negotiator : statusCodeNegotiator) (intSize : Nat)
    (pre : List String) (key : String) (post : List String) (code : Int)
    (hpre : ∀ x ∈ pre, negotiator.parseStatusCode intSize x = none)
    (hkey : negotiator.parseStatusCode intSize key = some code) :
    negotiator.firstParsed intSize (pre ++ key :: post) = ⟨key, code, none⟩ := by
  induction pre with
  | nil => simp [statusCodeNegotiator.firstParsed, hkey]
  | cons x pre ih =>
    have hx := hpre x (List.mem_cons_self _ _)
    simp only [List.cons_append, statusCodeNegotiator.firstParsed, hx]
    exact ih (fun y hy => hpre y (List.mem_cons_of_mem _ hy))

/-- A list with a key that parses splits at its first such key. -/
theorem exists_first_parsed (negotiator : statusCodeNegotiator) (intSize : Nat)
    (keys : List String)
    (h : ∃ k ∈ keys, negotiator.parseStatusCode intSize k ≠ none) :
    ∃ pre key post code, keys = pre ++ key :: post ∧
      (∀ x ∈ pre, negotiator.parseStatusCode intSize x = none) ∧
      negotiator.parseStatusCode intSize key = some code := by
  induction keys with
  | nil =>
    obtain ⟨k, hk, _⟩ := h
    cases hk
  | cons a rest ih =>
    cases ha : negotiator.parseStatusCode intSize a with
    | some c => exact ⟨[], a, rest, c, rfl, by simp, ha⟩
    | none =>
      have h2 : ∃ k ∈ rest, negotiator.parseStatusCode intSize k ≠ none := by
        obtain ⟨k, hk, hne⟩ := h
        rcases List.mem_cons.1 hk with hk | hk
        · subst hk
          exact absurd ha hne
        · exact ⟨k, hk, hne⟩
      obtain ⟨pre, key, post, code, e, hpre, hkey⟩ := ih h2
      refine ⟨a :: pre, key, post, code, by simp [e], ?_, hkey⟩
      intro x hx
      rcases List.mem_cons.1 hx with hx | hx
      · subst hx
        exact ha
      · exact hpre x hx

/-- A scan that ends without error returns a key of the list together with the
code that key parses to. -/
theorem firstParsed_ok (negotiator : statusCodeNegotiator) (intSize : Nat)
    (keys : List String) (h : (negotiator.firstParsed intSize keys).err = none) :
    (negotiator.firstParsed intSize keys).key ∈ keys ∧
    negotiator.parseStatusCode intSize (negotiator.firstParsed intSize keys).key
      = some (negotiator.firstParsed intSize keys).code := by
  induction keys with
  | nil => simp [statusCodeNegotiator.firstParsed, noMatchingResponse] at h
  | cons a rest ih =>
    cases ha : negotiator.parseStatusCode intSize a with
    | some c => simp [statusCodeNegotiator.firstParsed, ha]
    | none =>
      simp only [statusCodeNegotiator.firstParsed, ha] at h ⊢
      exact ⟨List.mem_cons_of_mem _ (ih h).1, (ih h).2⟩

/-- Writing to a position the key it already holds changes nothing. -/
theorem set_same (keys : List String) :
    ∀ (i : Nat) (a : String), keys[i]? = some a → keys.set i a = keys := by
  induction keys with
  | nil => intro i a h; simp at h
  | cons x rest ih =>
    intro i a h
    cases i with
    | zero =>
      simp only [List.getElem?_cons_zero, Option.some.injEq] at h
      simp [h]
    | succ i =>
      simp only [List.getElem?_cons_succ] at h
      simp [ih i a h]

/-- Swapping a position with itself changes nothing. -/
theorem swapKeys_self (keys : List String) (i : Nat) : swapKeys keys i i = keys := by
  unfold swapKeys
  cases hi : keys[i]? with
  | none => rfl
  | some a =>
    simp only [List.set_set]
    exact set_same keys i a hi

/-- After swapping position `p` with position 0 the key that was at `p` is first. -/
theorem swapKeys_zero_head (keys : List String) (p : Nat) (key : String)
    (h : keys[p]? = some key) : (swapKeys keys p 0).head? = some key := by
  unfold swapKeys
  obtain ⟨hpl, _⟩ := List.getElem?_eq_some.1 h
  have h0 : 0 < keys.length := by omega
  have hz : keys[0]? = some keys[0] := List.getElem?_eq_getElem h0
  rw [h, hz]
  simp only
  cases hs : keys.set p keys[0] with
  | nil =>
    have := congrArg List.length hs
    rw [List.length_set, List.length_nil] at this
    omega
  | cons a rest => rfl

/-- A source that draws `j = i` at every index up to `m` leaves the keys as they are. -/
theorem shuffleLoop_id (rnd : Nat → Nat) (m : Nat)
    (h : ∀ i, 1 ≤ i → i ≤ m → rnd i % (i + 1) = i) :
    ∀ keys : List String, shuffleLoop rnd m keys = keys := by
  induction m with
  | zero => intro keys; rfl
  | succ m ih =>
    intro keys
    have hm : rnd (m + 1) % (m + 2) = m + 1 := h (m + 1) (by omega) (le_refl _)
    simp only [shuffleLoop, hm, swapKeys_self]
    exact ih (fun i h1 h2 => h i h1 (by omega)) keys

/-- The source that draws 0 at index `p` and `j = i` at every other index moves
the key at position `p` to the front. -/
theorem shuffleLoop_head (p : Nat) (key : String) (m : Nat) :
    ∀ keys : List String, p ≤ m → keys[p]? = some key →
      (shuffleLoop (fun i => if i = p then 0 else i) m keys).head? = some key := by
  induction m with
  | zero =>
    intro keys hp hk
    have hp0 : p = 0 := by omega
    subst hp0
    cases keys with
    | nil => simp at hk
    | cons a rest => simpa [shuffleLoop] using hk
  | succ m ih =>
    intro keys hp hk
    by_cases hpm : p = m + 1
    · subst hpm
      have hid : ∀ l : List String,
          shuffleLoop (fun i => if i = m + 1 then 0 else i) m l = l := by
        apply shuffleLoop_id
        intro i _ h2
        have hne : i ≠ m + 1 := by omega
        simp only [hne, if_false]
        exact Nat.mod_eq_of_lt (by omega)
      simp only [shuffleLoop, if_true, Nat.zero_mod, hid]
      exact swapKeys_zero_head keys (m + 1) key hk
    · have hne : m + 1 ≠ p := fun e => hpm e.symm
      have hmod : (m + 1) % (m + 2) = m + 1 := Nat.mod_eq_of_lt (by omega)
      simp only [shuffleLoop, hne, if_false, hmod, swapKeys_self]
      exact ih keys (by omega) hk

/-- A deterministic scan that ends without error returns a key of the set
together with the code that key parses to. -/
theorem minSuccessOrErrorCode_ok (negotiator : statusCodeNegotiator) (intSize : Nat)
    (responses : List String)
    (h : (negotiator.minSuccessOrErrorCode intSize responses).err = none) :
    (negotiator.minSuccessOrErrorCode intSize responses).key ∈ responses ∧
    negotiator.parseStatusCode intSize (negotiator.minSuccessOrErrorCode intSize responses).key
      = some (negotiator.minSuccessOrErrorCode intSize responses).code := by
  have inv := minInv_final negotiator intSize responses
  unfold statusCodeNegotiator.minSuccessOrErrorCode MinState.result at h ⊢
  cases hs : (responses.foldl (negotiator.minStep intSize) MinState.init).hasSuccessCode with
  | true =>
    obtain ⟨a, b, _⟩ := inv.success_key hs
    simp only [if_true]
    exact ⟨a, b⟩
  | false =>
    cases he : (responses.foldl (negotiator.minStep intSize) MinState.init).hasErrorCode with
    | true =>
      obtain ⟨a, b, _⟩ := inv.error_key he
      simp only [Bool.false_eq_true, if_false, if_true]
      exact ⟨a, b⟩
    | false =>
      simp [hs, he, noMatchingResponse] at h

/-- The deterministic scan agrees on error and code for two enumerations of the
same keys. -/
theorem minSuccessOrErrorCode_perm (negotiator : statusCodeNegotiator) (intSize : Nat)
    (order₁ order₂ : List String) (h : order₁.Perm order₂) :
    (negotiator.minSuccessOrErrorCode intSize order₁).err =
      (negotiator.minSuccessOrErrorCode intSize order₂).err ∧
    (negotiator.minSuccessOrErrorCode intSize order₁).code =
      (negotiator.minSuccessOrErrorCode intSize order₂).code := by
  by_cases hs : ∃ k ∈ order₁, ∃ c, negotiator.parseStatusCode intSize k = some c ∧
      200 ≤ c ∧ c < 300
  · have hs2 : ∃ k ∈ order₂, ∃ c, negotiator.parseStatusCode intSize k = some c ∧
        200 ≤ c ∧ c < 300 := by
      obtain ⟨k, hk, rest⟩ := hs
      exact ⟨k, h.mem_iff.1 hk, rest⟩
    obtain ⟨a1, b1, c1, d1, e1, f1⟩ := minSuccessOrErrorCode_success negotiator intSize order₁ hs
    obtain ⟨a2, b2, c2, d2, e2, f2⟩ := minSuccessOrErrorCode_success negotiator intSize order₂ hs2
    refine ⟨by rw [a1, a2], ?_⟩
    have l1 := f1 _ (h.mem_iff.2 b2) _ c2 d2 e2
    have l2 := f2 _ (h.mem_iff.1 b1) _ c1 d1 e1
    omega
  · have hno : ∀ k ∈ order₁, ∀ c, negotiator.parseStatusCode intSize k = some c →
        ¬(200 ≤ c ∧ c < 300) := by
      intro k hk c hc hr
      exact hs ⟨k, hk, c, hc, hr.1, hr.2⟩
    have hno2 : ∀ k ∈ order₂, ∀ c, negotiator.parseStatusCode intSize k = some c →
        ¬(200 ≤ c ∧ c < 300) := fun k hk => hno k (h.mem_iff.2 hk)
    by_cases he : ∃ k ∈ order₁, ∃ c, negotiator.parseStatusCode intSize k = some c ∧
        c < MaxInt32
    · have he2 : ∃ k ∈ order₂, ∃ c, negotiator.parseStatusCode intSize k = some c ∧
          c < MaxInt32 := by
        obtain ⟨k, hk, rest⟩ := he
        exact ⟨k, h.mem_iff.1 hk, rest⟩
      obtain ⟨a1, b1, c1, f1⟩ := minSuccessOrErrorCode_error negotiator intSize order₁ hno he
      obtain ⟨a2, b2, c2, f2⟩ := minSuccessOrErrorCode_error negotiator intSize order₂ hno2 he2
      refine ⟨by rw [a1, a2], ?_⟩
      have l1 := f1 _ (h.mem_iff.2 b2) _ c2
      have l2 := f2 _ (h.mem_iff.1 b1) _ c1
      omega
    · have hge : ∀ k ∈ order₁, ∀ c, negotiator.parseStatusCode intSize k = some c →
          MaxInt32 ≤ c := by
        intro k hk c hc
        by_contra hlt
        exact he ⟨k, hk, c, hc, by omega⟩
      have hge2 : ∀ k ∈ order₂, ∀ c, negotiator.parseStatusCode intSize k = some c →
          MaxInt32 ≤ c := fun k hk => hge k (h.mem_iff.2 hk)
      rw [minSuccessOrErrorCode_fail negotiator intSize order₁ hge,
        minSuccessOrErrorCode_fail negotiator intSize order₂ hge2]
      exact ⟨rfl, rfl⟩

/-! ## Claims on the two policies -/

/-- C1: under the deterministic policy, when some key of the set parses to a
code in `[200, 300)`, then for every order in which the keys are enumerated
`NegotiateStatusCode` returns no error and the least code in `[200, 300)` that
a key of the set parses to, whatever smaller codes lie outside that range. -/
theorem deterministic_least_success_code (intSize : Nat) (rnd : Nat → Nat)
    (responses order : List String) (horder : order.Perm responses)
    (h : ∃ k ∈ responses, ∃ c,
      (NewStatusCodeNegotiator false).parseStatusCode intSize k = some c ∧ 200 ≤ c ∧ c < 300) :
    ((NewStatusCodeNegotiator false).NegotiateStatusCode intSize rnd order).err = none ∧
    (∃ k ∈ responses, (NewStatusCodeNegotiator false).parseStatusCode intSize k =
      some ((NewStatusCodeNegotiator false).NegotiateStatusCode intSize rnd order).code) ∧
    200 ≤ ((NewStatusCodeNegotiator false).NegotiateStatusCode intSize rnd order).code ∧
    ((NewStatusCodeNegotiator false).NegotiateStatusCode intSize rnd order).code < 300 ∧
    ∀ k ∈ responses, ∀ c, (NewStatusCodeNegotiator false).parseStatusCode intSize k = some c →
      200 ≤ c → c < 300 →
      ((NewStatusCodeNegotiator false).NegotiateStatusCode intSize rnd order).code ≤ c := by
  have h2 : ∃ k ∈ order, ∃ c,
      (NewStatusCodeNegotiator false).parseStatusCode intSize k = some c ∧ 200 ≤ c ∧ c < 300 := by
    obtain ⟨k, hk, rest⟩ := h
    exact ⟨k, horder.mem_iff.2 hk, rest⟩
  obtain ⟨a, b, c, d, e, f⟩ :=
    minSuccessOrErrorCode_success (NewStatusCodeNegotiator false) intSize order h2
  have hn : (NewStatusCodeNegotiator false).NegotiateStatusCode intSize rnd order =
      (NewStatusCodeNegotiator false).minSuccessOrErrorCode intSize order := rfl
  rw [hn]
  exact ⟨a, ⟨_, horder.mem_iff.1 b, c⟩, d, e, fun k hk => f k (horder.mem_iff.2 hk)⟩

/-- Witness of C1 on the set `100`, `200`, `404`, enumerated as `404`, `100`, `200`. -/
theorem deterministic_least_success_code_witness :
    ["404", "100", "200"].Perm ["100", "200", "404"] ∧
    ((NewStatusCodeNegotiator false).NegotiateStatusCode 64 (fun _ => 0)
      ["404", "100", "200"]).err = none ∧
    200 ≤ ((NewStatusCodeNegotiator false).NegotiateStatusCode 64 (fun _ => 0)
      ["404", "100", "200"]).code ∧
    (NewStatusCodeNegotiator false).NegotiateStatusCode 64 (fun _ => 0)
      ["404", "100", "200"] = ⟨"200", 200, none⟩ :=
  have hp : ["404", "100", "200"].Perm ["100", "200", "404"] := by decide
  have hc := deterministic_least_success_code 64 (fun _ => 0) ["100", "200", "404"]
    ["404", "100", "200"] hp ⟨"200", by decide, 200, by decide, by decide, by decide⟩
  ⟨hp, hc.1, hc.2.2.1, by decide⟩

/-- C2: the deterministic policy breaks the claim on the set whose only key is
`2147483647`. The key parses to 2147483647, which is outside `[200, 300)`, so the
claim asks for that code and no error; `minSuccessOrErrorCode` compares it with
the initial `minErrorCode = math.MaxInt32` by a strict `<`, never sets
`hasErrorCode`, and returns the failure, on 64-bit and on 32-bit `int` alike. The
random policy returns the same key with its code and no error. -/
theorem deterministic_max_int32_key_fails :
    (NewStatusCodeNegotiator false).parseStatusCode 64 "2147483647" = some 2147483647 ∧
    (NewStatusCodeNegotiator false).NegotiateStatusCode 64 (fun _ => 0) ["2147483647"]
      = ⟨"", 500, some (.Wrap .ErrNoMatchingResponse
          "[statusCodeNegotiator] failed to negotiate response")⟩ ∧
    (NewStatusCodeNegotiator false).parseStatusCode 32 "2147483647" = some 2147483647 ∧
    (NewStatusCodeNegotiator false).NegotiateStatusCode 32 (fun _ => 0) ["2147483647"]
      = ⟨"", 500, some (.Wrap .ErrNoMatchingResponse
          "[statusCodeNegotiator] failed to negotiate response")⟩ ∧
    (["2147483647"].foldl ((NewStatusCodeNegotiator false).minStep 64)
      MinState.init).hasErrorCode = false ∧
    (NewStatusCodeNegotiator true).NegotiateStatusCode 64 (fun _ => 0) ["2147483647"]
      = ⟨"2147483647", 2147483647, none⟩ ∧
    (NewStatusCodeNegotiator false).NegotiateStatusCode 64 (fun _ => 0) ["2147483646"]
      = ⟨"2147483646", 2147483646, none⟩ := by
  decide

/-- Where some key parses to a code below 2147483647 (`math.MaxInt32`) the
deterministic policy selects among the codes outside `[200, 300)` as intended:
when no key of the set parses to a code in `[200, 300)`, then for every order in
which the keys are enumerated `NegotiateStatusCode` returns no error and the
least of all codes the keys of the set parse to. -/
theorem deterministic_least_code_without_success (intSize : Nat) (rnd : Nat → Nat)
    (responses order : List String) (horder : order.Perm responses)
    (hno : ∀ k ∈ responses, ∀ c,
      (NewStatusCodeNegotiator false).parseStatusCode intSize k = some c →
      ¬(200 ≤ c ∧ c < 300))
    (h : ∃ k ∈ responses, ∃ c,
      (NewStatusCodeNegotiator false).parseStatusCode intSize k = some c ∧ c < 2147483647) :
    ((NewStatusCodeNegotiator false).NegotiateStatusCode intSize rnd order).err = none ∧
    (∃ k ∈ responses, (NewStatusCodeNegotiator false).parseStatusCode intSize k =
      some ((NewStatusCodeNegotiator false).NegotiateStatusCode intSize rnd order).code) ∧
    ∀ k ∈ responses, ∀ c, (NewStatusCodeNegotiator false).parseStatusCode intSize k = some c →
      ((NewStatusCodeNegotiator false).NegotiateStatusCode intSize rnd order).code ≤ c := by
  have hno2 : ∀ k ∈ order, ∀ c,
      (NewStatusCodeNegotiator false).parseStatusCode intSize k = some c →
      ¬(200 ≤ c ∧ c < 300) := fun k hk => hno k (horder.mem_iff.1 hk)
  have h2 : ∃ k ∈ order, ∃ c,
      (NewStatusCodeNegotiator false).parseStatusCode intSize k = some c ∧ c < MaxInt32 := by
    obtain ⟨k, hk, rest⟩ := h
    exact ⟨k, horder.mem_iff.2 hk, rest⟩
  obtain ⟨a, b, c, d⟩ :=
    minSuccessOrErrorCode_error (NewStatusCodeNegotiator false) intSize order hno2 h2
  have hn : (NewStatusCodeNegotiator false).NegotiateStatusCode intSize rnd order =
      (NewStatusCodeNegotiator false).minSuccessOrErrorCode intSize order := rfl
  rw [hn]
  exact ⟨a, ⟨_, horder.mem_iff.1 b, c⟩, fun k hk => d k (horder.mem_iff.2 hk)⟩

/-- The selection below the sentinel on the set `404`, `default`, `-1`, `zz`. -/
theorem deterministic_least_code_without_success_witness :
    ["zz", "default", "-1", "404"].Perm ["404", "default", "-1", "zz"] ∧
    ((NewStatusCodeNegotiator false).NegotiateStatusCode 64 (fun _ => 0)
      ["zz", "default", "-1", "404"]).err = none ∧
    ((NewStatusCodeNegotiator false).NegotiateStatusCode 64 (fun _ => 0)
      ["zz", "default", "-1", "404"]).code ≤ 404 ∧
    (NewStatusCodeNegotiator false).NegotiateStatusCode 64 (fun _ => 0)
      ["zz", "default", "-1", "404"] = ⟨"-1", -1, none⟩ :=
  have hp : ["zz", "default", "-1", "404"].Perm ["404", "default", "-1", "zz"] := by decide
  have hc := deterministic_least_code_without_success 64 (fun _ => 0)
    ["404", "default", "-1", "zz"] ["zz", "default", "-1", "404"] hp (by decide)
    ⟨"404", by decide, 404, by decide, by decide⟩
  ⟨hp, hc.1, hc.2.2 "404" (by decide) 404 (by decide), by decide⟩

/-- C3: when no key of the set parses (the empty set included), both policies
return the empty key, the code 500 and an error wrapping `ErrNoMatchingResponse`,
for every enumeration order and every outcome of the shuffle. -/
theorem no_parsed_key_fails (randomResponse : Bool) (intSize : Nat) (rnd : Nat → Nat)
    (responses order : List String) (horder : order.Perm responses)
    (h : ∀ k ∈ responses,
      (NewStatusCodeNegotiator randomResponse).parseStatusCode intSize k = none) :
    (NewStatusCodeNegotiator randomResponse).NegotiateStatusCode intSize rnd order =
      ⟨"", 500, some (.Wrap .ErrNoMatchingResponse
        "[statusCodeNegotiator] failed to negotiate response")⟩ := by
  have hfail : noMatchingResponse = ⟨"", 500, some (.Wrap .ErrNoMatchingResponse
      "[statusCodeNegotiator] failed to negotiate response")⟩ := rfl
  rw [← hfail]
  cases randomResponse with
  | true =>
    show (NewStatusCodeNegotiator true).firstParsed intSize
      (Shuffle rnd order.length order) = noMatchingResponse
    apply firstParsed_none
    intro k hk
    exact h k (horder.mem_iff.1 ((Shuffle_perm rnd _ order).mem_iff.1 hk))
  | false =>
    show (NewStatusCodeNegotiator false).minSuccessOrErrorCode intSize order
      = noMatchingResponse
    apply minSuccessOrErrorCode_fail
    intro k hk c hc
    rw [h k (horder.mem_iff.1 hk)] at hc
    cases hc

/-- Witness of C3 on the set `abc`, `6xx` under the random policy. -/
theorem no_parsed_key_fails_witness :
    ["6xx", "abc"].Perm ["abc", "6xx"] ∧
    (NewStatusCodeNegotiator true).NegotiateStatusCode 64 (fun _ => 0) ["6xx", "abc"] =
      ⟨"", 500, some (.Wrap .ErrNoMatchingResponse
        "[statusCodeNegotiator] failed to negotiate response")⟩ :=
  have hp : ["6xx", "abc"].Perm ["abc", "6xx"] := by decide
  ⟨hp, no_parsed_key_fails true 64 (fun _ => 0) ["abc", "6xx"] ["6xx", "abc"] hp (by decide)⟩

/-- C8: under both policies, a negotiation that returns without error returns a
key of the given set, and the returned code is what `parseStatusCode` gives for
that key; so a key that fails to parse is never returned. -/
theorem negotiated_key_parses (randomResponse : Bool) (intSize : Nat) (rnd : Nat → Nat)
    (responses : List String)
    (h : ((NewStatusCodeNegotiator randomResponse).NegotiateStatusCode intSize rnd
      responses).err = none) :
    ((NewStatusCodeNegotiator randomResponse).NegotiateStatusCode intSize rnd
      responses).key ∈ responses ∧
    (NewStatusCodeNegotiator randomResponse).parseStatusCode intSize
      ((NewStatusCodeNegotiator randomResponse).NegotiateStatusCode intSize rnd responses).key
      = some ((NewStatusCodeNegotiator randomResponse).NegotiateStatusCode intSize rnd
        responses).code := by
  cases randomResponse with
  | true =>
    have hn : (NewStatusCodeNegotiator true).NegotiateStatusCode intSize rnd responses =
      (NewStatusCodeNegotiator true).firstParsed intSize
        (Shuffle rnd responses.length responses) := rfl
    rw [hn] at h ⊢
    obtain ⟨a, b⟩ := firstParsed_ok _ intSize _ h
    exact ⟨(Shuffle_perm rnd _ responses).mem_iff.1 a, b⟩
  | false =>
    have hn : (NewStatusCodeNegotiator false).NegotiateStatusCode intSize rnd responses =
      (NewStatusCodeNegotiator false).minSuccessOrErrorCode intSize responses := rfl
    rw [hn] at h ⊢
    exact minSuccessOrErrorCode_ok _ intSize responses h

/-- Witness of C8 on the keys `zz`, `4XX`, `201` under the random policy. -/
theorem negotiated_key_parses_witness :
    ((NewStatusCodeNegotiator true).NegotiateStatusCode 64 (fun _ => 0)
      ["zz", "4XX", "201"]).err = none ∧
    ((NewStatusCodeNegotiator true).NegotiateStatusCode 64 (fun _ => 0)
      ["zz", "4XX", "201"]).key ∈ ["zz", "4XX", "201"] :=
  have he : ((NewStatusCodeNegotiator true).NegotiateStatusCode 64 (fun _ => 0)
      ["zz", "4XX", "201"]).err = none := by decide
  ⟨he, (negotiated_key_parses true 64 (fun _ => 0) ["zz", "4XX", "201"] he).1⟩

/-- C9: under the deterministic policy two runs of `NegotiateStatusCode` on the
same set, whatever the two orders in which the keys are enumerated, agree on
the error and return the same status code. -/
theorem deterministic_code_idempotent (intSize : Nat) (rnd₁ rnd₂ : Nat → Nat)
    (order₁ order₂ : List String) (h : order₁.Perm order₂) :
    ((NewStatusCodeNegotiator false).NegotiateStatusCode intSize rnd₁ order₁).err =
      ((NewStatusCodeNegotiator false).NegotiateStatusCode intSize rnd₂ order₂).err ∧
    ((NewStatusCodeNegotiator false).NegotiateStatusCode intSize rnd₁ order₁).code =
      ((NewStatusCodeNegotiator false).NegotiateStatusCode intSize rnd₂ order₂).code :=
  minSuccessOrErrorCode_perm (NewStatusCodeNegotiator false) intSize order₁ order₂ h

/-- Witness of C9 on two enumerations of `default`, `2xx`, `200`, `abc`. -/
theorem deterministic_code_idempotent_witness :
    ["default", "2xx", "200", "abc"].Perm ["abc", "200", "default", "2xx"] ∧
    ((NewStatusCodeNegotiator false).NegotiateStatusCode 64 (fun _ => 0)
      ["default", "2xx", "200", "abc"]).code =
    ((NewStatusCodeNegotiator false).NegotiateStatusCode 64 (fun _ => 1)
      ["abc", "200", "default", "2xx"]).code :=
  have hp : ["default", "2xx", "200", "abc"].Perm ["abc", "200", "default", "2xx"] := by
    decide
  ⟨hp, (deterministic_code_idempotent 64 (fun _ => 0) (fun _ => 1)
    ["default", "2xx", "200", "abc"] ["abc", "200", "default", "2xx"] hp).2⟩

/-- C10 as stated fails: the keys `200` and `2xx` are distinct, both parse to 200,
and the deterministic policy returns whichever of them is enumerated first. -/
theorem deterministic_key_depends_on_order :
    ["2xx", "200"].Perm ["200", "2xx"] ∧ ["200", "2xx"].Nodup ∧
    (NewStatusCodeNegotiator false).minSuccessOrErrorCode 64 ["200", "2xx"]
      = ⟨"200", 200, none⟩ ∧
    (NewStatusCodeNegotiator false).minSuccessOrErrorCode 64 ["2xx", "200"]
      = ⟨"2xx", 200, none⟩ := by
  decide

/-- C10 (amended): for two orders in which the keys of a set are enumerated,
`minSuccessOrErrorCode` returns the same code and error, and also the same
selector key provided no two distinct keys of the set parse to the returned
code. -/
theorem deterministic_key_order_independent (intSize : Nat) (order₁ order₂ : List String)
    (h : order₁.Perm order₂)
    (hinj : ∀ k₁ ∈ order₁, ∀ k₂ ∈ order₁,
      (NewStatusCodeNegotiator false).parseStatusCode intSize k₁ =
        some ((NewStatusCodeNegotiator false).minSuccessOrErrorCode intSize order₁).code →
      (NewStatusCodeNegotiator false).parseStatusCode intSize k₂ =
        some ((NewStatusCodeNegotiator false).minSuccessOrErrorCode intSize order₁).code →
      k₁ = k₂) :
    (NewStatusCodeNegotiator false).minSuccessOrErrorCode intSize order₁ =
      (NewStatusCodeNegotiator false).minSuccessOrErrorCode intSize order₂ := by
  obtain ⟨herr, hcode⟩ :=
    minSuccessOrErrorCode_perm (NewStatusCodeNegotiator false) intSize order₁ order₂ h
  have hkey : ((NewStatusCodeNegotiator false).minSuccessOrErrorCode intSize order₁).key =
      ((NewStatusCodeNegotiator false).minSuccessOrErrorCode intSize order₂).key := by
    cases he : ((NewStatusCodeNegotiator false).minSuccessOrErrorCode intSize order₁).err with
    | none =>
      obtain ⟨a1, b1⟩ := minSuccessOrErrorCode_ok _ intSize order₁ he
      obtain ⟨a2, b2⟩ := minSuccessOrErrorCode_ok _ intSize order₂ (herr ▸ he)
      rw [← hcode] at b2
      exact hinj _ a1 _ (h.mem_iff.2 a2) b1 b2
    | some e =>
      have key_of_err : ∀ l : List String,
          ((NewStatusCodeNegotiator false).minSuccessOrErrorCode intSize l).err ≠ none →
          ((NewStatusCodeNegotiator false).minSuccessOrErrorCode intSize l).key = "" := by
        intro l hl
        unfold statusCodeNegotiator.minSuccessOrErrorCode MinState.result at hl ⊢
        split at hl
        · exact absurd rfl hl
        · split at hl
          · exact absurd rfl hl
          · simp [*, noMatchingResponse]
      rw [key_of_err order₁ (by rw [he]; simp), key_of_err order₂ (by rw [← herr, he]; simp)]
  cases h1 : (NewStatusCodeNegotiator false).minSuccessOrErrorCode intSize order₁ with
  | mk k1 c1 e1 =>
    cases h2 : (NewStatusCodeNegotiator false).minSuccessOrErrorCode intSize order₂ with
    | mk k2 c2 e2 =>
      rw [h1, h2] at herr hcode hkey
      simp only at herr hcode hkey
      rw [herr, hcode, hkey]

/-- Witness of the amended C10 on two enumerations of `404`, `2xx`, `default`. -/
theorem deterministic_key_order_independent_witness :
    ["404", "2xx", "default"].Perm ["default", "404", "2xx"] ∧
    (NewStatusCodeNegotiator false).minSuccessOrErrorCode 64 ["404", "2xx", "default"] =
      (NewStatusCodeNegotiator false).minSuccessOrErrorCode 64 ["default", "404", "2xx"] :=
  have hp : ["404", "2xx", "default"].Perm ["default", "404", "2xx"] := by decide
  ⟨hp, deterministic_key_order_independent 64 ["404", "2xx", "default"]
    ["default", "404", "2xx"] hp (by decide)⟩

/-- C6: under the random policy, when some key of the set parses, the shuffled
keys split into a prefix of keys that all fail to parse, the first key that
parses, and the rest; `randomCode` skips the prefix and returns that key with
its code and no error. The shuffled keys are a permutation of the set, whatever
the random source draws. -/
theorem random_returns_first_parsed (intSize : Nat) (rnd : Nat → Nat)
    (responses : List String)
    (h : ∃ k ∈ responses, (NewStatusCodeNegotiator true).parseStatusCode intSize k ≠ none) :
    (Shuffle rnd responses.length responses).Perm responses ∧
    ∃ pre key post code,
      Shuffle rnd responses.length responses = pre ++ key :: post ∧
      (∀ x ∈ pre, (NewStatusCodeNegotiator true).parseStatusCode intSize x = none) ∧
      (NewStatusCodeNegotiator true).parseStatusCode intSize key = some code ∧
      (NewStatusCodeNegotiator true).randomCode intSize rnd responses = ⟨key, code, none⟩ := by
  have hperm := Shuffle_perm rnd responses.length responses
  refine ⟨hperm, ?_⟩
  have h2 : ∃ k ∈ Shuffle rnd responses.length responses,
      (NewStatusCodeNegotiator true).parseStatusCode intSize k ≠ none := by
    obtain ⟨k, hk, hne⟩ := h
    exact ⟨k, hperm.mem_iff.2 hk, hne⟩
  obtain ⟨pre, key, post, code, e, hpre, hkey⟩ := exists_first_parsed _ intSize _ h2
  refine ⟨pre, key, post, code, e, hpre, hkey, ?_⟩
  show (NewStatusCodeNegotiator true).firstParsed intSize
    (Shuffle rnd responses.length responses) = ⟨key, code, none⟩
  rw [e]
  exact firstParsed_append _ intSize pre key post code hpre hkey

/-- Witness of C6 on the keys `zz`, `404`, `abc`, `200` with a source that always
draws 0: the random policy does not fail. -/
theorem random_returns_first_parsed_witness :
    (∃ pre key post code,
      Shuffle (fun _ => 0) 4 ["zz", "404", "abc", "200"] = pre ++ key :: post ∧
      (∀ x ∈ pre, (NewStatusCodeNegotiator true).parseStatusCode 64 x = none) ∧
      (NewStatusCodeNegotiator true).parseStatusCode 64 key = some code ∧
      (NewStatusCodeNegotiator true).randomCode 64 (fun _ => 0) ["zz", "404", "abc", "200"]
        = ⟨key, code, none⟩) :=
  (random_returns_first_parsed 64 (fun _ => 0) ["zz", "404", "abc", "200"]
    ⟨"404", by decide, by decide⟩).2

/-- C7: every key of the set that parses is reachable under the random policy:
some sequence of draws of the random source makes `randomCode` return exactly
that key, with the code it parses to and no error. -/
theorem random_reaches_every_parsed_key (intSize : Nat) (responses : List String)
    (key : String) (code : Int) (hmem : key ∈ responses)
    (hparse : (NewStatusCodeNegotiator true).parseStatusCode intSize key = some code) :
    ∃ rnd : Nat → Nat,
      (Shuffle rnd responses.length responses).Perm responses ∧
      (NewStatusCodeNegotiator true).randomCode intSize rnd responses = ⟨key, code, none⟩ := by
  obtain ⟨p, hpl, hpk⟩ := List.getElem_of_mem hmem
  have hk : responses[p]? = some key := by
    rw [List.getElem?_eq_getElem hpl, hpk]
  refine ⟨fun i => if i = p then 0 else i, Shuffle_perm _ _ _, ?_⟩
  have hhead := shuffleLoop_head p key (responses.length - 1) responses (by omega) hk
  show (NewStatusCodeNegotiator true).firstParsed intSize
    (shuffleLoop (fun i => if i = p then 0 else i) (responses.length - 1) responses)
      = ⟨key, code, none⟩
  cases hs : shuffleLoop (fun i => if i = p then 0 else i) (responses.length - 1) responses with
  | nil => rw [hs] at hhead; cases hhead
  | cons a rest =>
    rw [hs] at hhead
    simp only [List.head?_cons, Option.some.injEq] at hhead
    subst hhead
    exact firstParsed_append _ intSize [] a rest code (by simp) hparse

/-- Witness of C7 for the last key of `200`, `zz`, `404`, `5xx`. -/
theorem random_reaches_every_parsed_key_witness :
    "5xx" ∈ ["200", "zz", "404", "5xx"] ∧
    (NewStatusCodeNegotiator true).parseStatusCode 64 "5xx" = some 500 ∧
    ∃ rnd : Nat → Nat,
      (Shuffle rnd 4 ["200", "zz", "404", "5xx"]).Perm ["200", "zz", "404", "5xx"] ∧
      (NewStatusCodeNegotiator true).randomCode 64 rnd ["200", "zz", "404", "5xx"]
        = ⟨"5xx", 500, none⟩ :=
  have hm : "5xx" ∈ ["200", "zz", "404", "5xx"] := by decide
  have hp : (NewStatusCodeNegotiator true).parseStatusCode 64 "5xx" = some 500 := by decide
  ⟨hm, hp, random_reaches_every_parsed_key 64 ["200", "zz", "404", "5xx"] "5xx" 500 hm hp⟩

/-! ## Claims on key parsing -/

/-- C4 as stated fails: `9223372036854775808` is a base-10 integer literal, the
reference definition gives its value, and `parseStatusCode` on a 64-bit `int`
gives a parse error; likewise `2147483648` on a 32-bit `int`. -/
theorem parse_rejects_literal_out_of_range :
    referenceParse integerLiteral "9223372036854775808" = some 9223372036854775808 ∧
    (NewStatusCodeNegotiator false).parseStatusCode 64 "9223372036854775808" = none ∧
    referenceParse integerLiteral "2147483648" = some 2147483648 ∧
    (NewStatusCodeNegotiator false).parseStatusCode 32 "2147483648" = none := by
  decide

/-- C4 (amended): `parseStatusCode` equals the reference definition in which a
base-10 integer literal is an optional sign followed by decimal digits whose
value fits the `int` of the platform: with `k` the lower-cased key, `default`
gives 500, one digit `d` in 1..5 followed by `xx` gives `d * 100`, such a literal
gives its value, and anything else, a literal out of range included, is a parse
error. -/
theorem parseStatusCode_eq_reference (randomResponse : Bool) (intSize : Nat)
    (hsize : 32 ≤ intSize) (key : String) :
    (NewStatusCodeNegotiator randomResponse).parseStatusCode intSize key =
      referenceParse (fun k => (integerLiteral k).filter (fitsInt intSize)) key := by
  unfold statusCodeNegotiator.parseStatusCode referenceParse
  simp only
  by_cases hdef : ToLower key = "default"
  · rw [if_pos hdef, if_pos hdef]
    rfl
  · rw [if_neg hdef, if_neg hdef]
    have hr := rangePattern_eq randomResponse intSize hsize (ToLower key)
    cases hm : (NewStatusCodeNegotiator randomResponse).rangeDefinitionPattern.MatchString
        (ToLower key) with
    | true =>
      rw [hm, if_pos rfl] at hr
      rw [if_pos rfl, ← hr]
    | false =>
      rw [hm, if_neg (by simp)] at hr
      rw [if_neg (by simp), ← hr]
      exact ParseInt_eq intSize (ToLower key).data

/-- Witness of the amended C4 at the key `2XX`, with the keys the claim lists:
`default` gives 500, `4xx` 400, `2XX` 200, `404` 404, and `abc`, `6xx`, `0xx`, `2x`
are parse errors. -/
theorem parseStatusCode_eq_reference_witness :
    (NewStatusCodeNegotiator false).parseStatusCode 64 "2XX" =
      referenceParse (fun k => (integerLiteral k).filter (fitsInt 64)) "2XX" ∧
    (NewStatusCodeNegotiator false).parseStatusCode 64 "default" = some 500 ∧
    (NewStatusCodeNegotiator false).parseStatusCode 64 "4xx" = some 400 ∧
    (NewStatusCodeNegotiator false).parseStatusCode 64 "2XX" = some 200 ∧
    (NewStatusCodeNegotiator false).parseStatusCode 64 "404" = some 404 ∧
    (NewStatusCodeNegotiator false).parseStatusCode 64 "abc" = none ∧
    (NewStatusCodeNegotiator false).parseStatusCode 64 "6xx" = none ∧
    (NewStatusCodeNegotiator false).parseStatusCode 64 "0xx" = none ∧
    (NewStatusCodeNegotiator false).parseStatusCode 64 "2x" = none :=
  ⟨parseStatusCode_eq_reference false 64 (by decide) "2XX", by decide, by decide, by decide,
    by decide, by decide, by decide, by decide, by decide⟩

/-- C5: key parsing is case-insensitive. Two keys that differ only in the letter
case of their runes get the same result from `parseStatusCode`: both fail or
both succeed with the same code. -/
theorem parseStatusCode_case_insensitive (randomResponse : Bool) (intSize : Nat)
    (key key' : String) (h : differOnlyInCase key.data key'.data = true) :
    (NewStatusCodeNegotiator randomResponse).parseStatusCode intSize key =
      (NewStatusCodeNegotiator randomResponse).parseStatusCode intSize key' := by
  rcases differOnlyInCase_lower key.data key'.data h with e | ⟨⟨x, hx, hxd⟩, ⟨y, hy, hyd⟩⟩
  · have hl : ToLower key = ToLower key' := by
      unfold ToLower
      rw [e]
    unfold statusCodeNegotiator.parseStatusCode
    rw [hl]
  · have none_of : ∀ (k : String) (c : Char), c ∈ (ToLower k).data → keyRune c = false →
        (NewStatusCodeNegotiator randomResponse).parseStatusCode intSize k = none := by
      intro k c hc hd
      cases hp : (NewStatusCodeNegotiator randomResponse).parseStatusCode intSize k with
      | none => rfl
      | some v =>
        have := keyRune_of_parsed _ intSize rfl k v hp c hc
        rw [hd] at this
        cases this
    rw [none_of key x hx hxd, none_of key' y hy hyd]

/-- Witness of C5 on `DEFAULT` and `Default`, with the keys the claim lists:
`DEFAULT`, `Default`, `default`, `5XX`, `5Xx` and `5xx` all give 500. -/
theorem parseStatusCode_case_insensitive_witness :
    differOnlyInCase "DEFAULT".data "Default".data = true ∧
    (NewStatusCodeNegotiator false).parseStatusCode 64 "DEFAULT" =
      (NewStatusCodeNegotiator false).parseStatusCode 64 "Default" ∧
    (NewStatusCodeNegotiator false).parseStatusCode 64 "DEFAULT" = some 500 ∧
    (NewStatusCodeNegotiator false).parseStatusCode 64 "Default" = some 500 ∧
    (NewStatusCodeNegotiator false).parseStatusCode 64 "default" = some 500 ∧
    (NewStatusCodeNegotiator false).parseStatusCode 64 "5XX" = some 500 ∧
    (NewStatusCodeNegotiator false).parseStatusCode 64 "5Xx" = some 500 ∧
    (NewStatusCodeNegotiator false).parseStatusCode 64 "5xx" = some 500 :=
  have hd : differOnlyInCase "DEFAULT".data "Default".data = true := by decide
  ⟨hd, parseStatusCode_case_insensitive false 64 "DEFAULT" "Default" hd, by decide, by decide,
    by decide, by decide, by decide, by decide⟩

/-! ## Further claims on the two policies -/

/-- The key `default` parses to 500 whatever the width of `int`. -/
theorem parseStatusCode_default (negotiator : statusCodeNegotiator) (intSize : Nat) :
    negotiator.parseStatusCode intSize "default" = some 500 := by
  have hl : ToLower "default" = "default" := by decide
  unfold statusCodeNegotiator.parseStatusCode
  simp only [hl, if_true]
  rfl

/-- C11: for a set whose only key is `default`, `NegotiateStatusCode` returns the
key `default`, the code 500 and no error, under the deterministic and under the
random policy alike. -/
theorem only_default_gives_500 (randomResponse : Bool) (intSize : Nat) (rnd : Nat → Nat) :
    (NewStatusCodeNegotiator randomResponse).NegotiateStatusCode intSize rnd ["default"] =
      ⟨"default", 500, none⟩ := by
  cases randomResponse with
  | true =>
    show (NewStatusCodeNegotiator true).firstParsed intSize ["default"] = _
    simp only [statusCodeNegotiator.firstParsed, parseStatusCode_default]
  | false =>
    show ((NewStatusCodeNegotiator false).minStep intSize MinState.init "default").result = _
    simp only [statusCodeNegotiator.minStep, parseStatusCode_default, MinState.init, MaxInt32]
    decide

/-- C17: `minSuccessOrErrorCode` returns the `ErrNoMatchingResponse` error exactly
when no key parses to a code below 2147483647 (`math.MaxInt32`), for every
enumeration order; and a result without error carries a code below 2147483647. -/
theorem deterministic_fails_iff_no_code_below_sentinel (intSize : Nat)
    (responses : List String) :
    (((NewStatusCodeNegotiator false).minSuccessOrErrorCode intSize responses).err =
        some (.Wrap .ErrNoMatchingResponse
          "[statusCodeNegotiator] failed to negotiate response") ↔
      ∀ k ∈ responses, ∀ c,
        (NewStatusCodeNegotiator false).parseStatusCode intSize k = some c →
        2147483647 ≤ c) ∧
    (((NewStatusCodeNegotiator false).minSuccessOrErrorCode intSize responses).err = none →
      ((NewStatusCodeNegotiator false).minSuccessOrErrorCode intSize responses).code
        < 2147483647) ∧
    (((NewStatusCodeNegotiator false).minSuccessOrErrorCode intSize responses).err = none ∨
      ((NewStatusCodeNegotiator false).minSuccessOrErrorCode intSize responses).err =
        some (.Wrap .ErrNoMatchingResponse
          "[statusCodeNegotiator] failed to negotiate response")) := by
  have inv := minInv_final (NewStatusCodeNegotiator false) intSize responses
  by_cases hge : ∀ k ∈ responses, ∀ c,
      (NewStatusCodeNegotiator false).parseStatusCode intSize k = some c → MaxInt32 ≤ c
  · have hfail := minSuccessOrErrorCode_fail _ intSize responses hge
    rw [hfail]
    refine ⟨⟨fun _ => hge, fun _ => rfl⟩, ?_, Or.inr rfl⟩
    intro h
    simp [noMatchingResponse] at h
  · have hex : ∃ k ∈ responses, ∃ c,
        (NewStatusCodeNegotiator false).parseStatusCode intSize k = some c ∧
        c < MaxInt32 := by
      by_contra hne
      apply hge
      intro k hk c hc
      by_contra hlt
      exact hne ⟨k, hk, c, hc, by omega⟩
    have hok : ((NewStatusCodeNegotiator false).minSuccessOrErrorCode intSize responses).err
        = none := by
      by_cases hs : ∃ k ∈ responses, ∃ c,
          (NewStatusCodeNegotiator false).parseStatusCode intSize k = some c ∧
          200 ≤ c ∧ c < 300
      · exact (minSuccessOrErrorCode_success _ intSize responses hs).1
      · refine (minSuccessOrErrorCode_error _ intSize responses ?_ hex).1
        intro k hk c hc hr
        exact hs ⟨k, hk, c, hc, hr.1, hr.2⟩
    refine ⟨⟨fun h => ?_, fun h => absurd h hge⟩, ?_, Or.inl hok⟩
    · rw [hok] at h
      cases h
    · intro _
      unfold statusCodeNegotiator.minSuccessOrErrorCode MinState.result
      cases hs : (responses.foldl ((NewStatusCodeNegotiator false).minStep intSize)
          MinState.init).hasSuccessCode with
      | true =>
        have := (inv.success_key hs).2.2.2
        simp only [if_true]
        omega
      | false =>
        cases he : (responses.foldl ((NewStatusCodeNegotiator false).minStep intSize)
            MinState.init).hasErrorCode with
        | true =>
          have := (inv.error_key he).2.2
          simp only [Bool.false_eq_true, if_false, if_true]
          exact this
        | false =>
          unfold statusCodeNegotiator.minSuccessOrErrorCode MinState.result at hok
          simp [hs, he, noMatchingResponse] at hok

/-- The range pattern only matches range tokens. -/
theorem rangeTokenDigit_of_match (l : List Char)
    (h : matchPositions [.range '1' '5', .lit 'x', .lit 'x'] l = true) :
    (rangeTokenDigit l).isSome = true := by
  match l with
  | [] => simp [matchPositions] at h
  | [_] => simp [matchPositions] at h
  | [_, _] => simp [matchPositions] at h
  | _ :: _ :: _ :: _ :: _ => simp [matchPositions] at h
  | [d, x₁, x₂] =>
    simp only [matchPositions, CharClass.accepts, Bool.and_true, Bool.and_eq_true,
      decide_eq_true_eq] at h
    obtain ⟨⟨h1, h2⟩, hx1, hx2⟩ := h
    have h1' : 49 ≤ d.toNat := h1
    have h2' : d.toNat ≤ 53 := h2
    have hc := char_eq_ofNat d d.toNat rfl
    generalize d.toNat = n at h1' h2' hc
    subst hc hx1 hx2
    interval_cases n <;> decide

/-- C13 as stated fails: the keys `-1`, `0`, `42`, `+200`, `0200` and `99999` are
none of the three declared forms, and `parseStatusCode` accepts each of them. -/
theorem parse_accepts_keys_of_other_shapes :
    (NewStatusCodeNegotiator false).parseStatusCode 64 "-1" = some (-1) ∧
    (NewStatusCodeNegotiator false).parseStatusCode 64 "0" = some 0 ∧
    (NewStatusCodeNegotiator false).parseStatusCode 64 "42" = some 42 ∧
    (NewStatusCodeNegotiator false).parseStatusCode 64 "+200" = some 200 ∧
    (NewStatusCodeNegotiator false).parseStatusCode 64 "0200" = some 200 ∧
    (NewStatusCodeNegotiator false).parseStatusCode 64 "99999" = some 99999 := by
  decide

/-- C13 (amended): a key that `parseStatusCode` accepts is, ignoring case, the
literal `default`, a range token (one digit 1..5 followed by `xx`), or a base-10
integer literal (an optional sign followed by decimal digits, of any length)
whose value fits `int` and is the returned code; every other key is rejected. -/
theorem parsed_key_forms (randomResponse : Bool) (intSize : Nat) (key : String) (code : Int)
    (h : (NewStatusCodeNegotiator randomResponse).parseStatusCode intSize key = some code) :
    ToLower key = "default" ∨
    (rangeTokenDigit (ToLower key).data).isSome = true ∨
    (integerLiteral (ToLower key).data = some code ∧ fitsInt intSize code = true) := by
  unfold statusCodeNegotiator.parseStatusCode at h
  simp only at h
  by_cases hdef : ToLower key = "default"
  · exact Or.inl hdef
  · rw [if_neg hdef] at h
    by_cases hm : (NewStatusCodeNegotiator randomResponse).rangeDefinitionPattern.MatchString
        (ToLower key) = true
    · exact Or.inr (Or.inl (rangeTokenDigit_of_match _ hm))
    · rw [if_neg hm] at h
      unfold Atoi at h
      rw [ParseInt_eq] at h
      right; right
      cases hl : integerLiteral (ToLower key).data with
      | none => rw [hl] at h; simp [Option.filter] at h
      | some v =>
        rw [hl] at h
        simp only [Option.filter] at h
        by_cases hf : fitsInt intSize v = true
        · rw [if_pos hf] at h
          cases h
          exact ⟨rfl, hf⟩
        · rw [if_neg hf] at h
          cases h

/-- Witness of the amended C13 at the key `0200`, an integer literal of value 200. -/
theorem parsed_key_forms_witness :
    (NewStatusCodeNegotiator false).parseStatusCode 64 "0200" = some 200 ∧
    (ToLower "0200" = "default" ∨
      (rangeTokenDigit (ToLower "0200").data).isSome = true ∨
      (integerLiteral (ToLower "0200").data = some 200 ∧ fitsInt 64 200 = true)) :=
  have hp : (NewStatusCodeNegotiator false).parseStatusCode 64 "0200" = some 200 := by decide
  ⟨hp, parsed_key_forms false 64 "0200" 200 hp⟩

/-- C14: the selection policy is fixed by the construction argument alone. A
negotiator built with `b` stores `b`; its `NegotiateStatusCode` is `randomCode`
when `b` is true and `minSuccessOrErrorCode` when `b` is false, on every input;
`generator.New` hands exactly its `randomResponse` to `NewStatusCodeNegotiator`;
and two negotiators built side by side with different `b` are different values
that each follow their own policy (on `404`, `200` with a source that swaps
nothing the random one returns `404`, the deterministic one `200`). -/
theorem policy_fixed_at_construction :
    (∀ b : Bool, (NewStatusCodeNegotiator b).randomResponse = b) ∧
    (∀ (intSize : Nat) (rnd : Nat → Nat) (responses : List String),
      (NewStatusCodeNegotiator true).NegotiateStatusCode intSize rnd responses =
        (NewStatusCodeNegotiator true).randomCode intSize rnd responses) ∧
    (∀ (intSize : Nat) (rnd : Nat → Nat) (responses : List String),
      (NewStatusCodeNegotiator false).NegotiateStatusCode intSize rnd responses =
        (NewStatusCodeNegotiator false).minSuccessOrErrorCode intSize responses) ∧
    (∀ (D C G : Type) (ctn : C) (newGenerator : D → G) (dataGenerator : D) (b : Bool),
      (New ctn newGenerator dataGenerator b).statusCodeNegotiator =
        NewStatusCodeNegotiator b) ∧
    ((NewStatusCodeNegotiator true).NegotiateStatusCode 64 (fun i => i) ["404", "200"] =
        ⟨"404", 404, none⟩ ∧
      (NewStatusCodeNegotiator false).NegotiateStatusCode 64 (fun i => i) ["404", "200"] =
        ⟨"200", 200, none⟩) ∧
    NewStatusCodeNegotiator true ≠ NewStatusCodeNegotiator false := by
  refine ⟨fun _ => rfl, fun _ _ _ => rfl, fun _ _ _ => rfl, fun _ _ _ _ _ _ _ => rfl,
    ⟨by decide, by decide⟩, ?_⟩
  intro h
  have := congrArg statusCodeNegotiator.randomResponse h
  cases this

/-! ## The deterministic policy: ties and the fall-through of the else-branch -/

theorem minFirst_step (negotiator : statusCodeNegotiator) (intSize : Nat) (seen : List String)
    (s : MinState) (key : String) (inv : MinInv negotiator intSize seen s)
    (h : MinFirst negotiator intSize seen s) :
    MinFirst negotiator intSize (seen ++ [key]) (negotiator.minStep intSize s key) := by
  obtain ⟨f1, f2⟩ := h
  have keep1 : s.hasSuccessCode = true →
      ∃ pre post, seen ++ [key] = pre ++ s.minSuccessCodeKey :: post ∧
        ∀ x ∈ pre, negotiator.parseStatusCode intSize x ≠ some s.minSuccessCode := by
    intro hs
    obtain ⟨pre, post, e, hpre⟩ := f1 hs
    exact ⟨pre, post ++ [key], by rw [e]; simp, hpre⟩
  have keep2 : s.hasSuccessCode = false → s.hasErrorCode = true →
      ∃ pre post, seen ++ [key] = pre ++ s.minErrorCodeKey :: post ∧
        ∀ x ∈ pre, negotiator.parseStatusCode intSize x ≠ some s.minErrorCode := by
    intro hs he
    obtain ⟨pre, post, e, hpre⟩ := f2 hs he
    exact ⟨pre, post ++ [key], by rw [e]; simp, hpre⟩
  unfold statusCodeNegotiator.minStep
  cases hp : negotiator.parseStatusCode intSize key with
  | none => exact ⟨keep1, keep2⟩
  | some code =>
    simp only
    by_cases hA : 200 ≤ code ∧ code < 300 ∧ code < s.minSuccessCode
    · rw [if_pos hA]
      refine ⟨fun _ => ⟨seen, [], rfl, ?_⟩, fun hs => by cases hs⟩
      intro x hx hxc
      have := inv.success_le x hx code hxc hA.1 hA.2.1
      omega
    · rw [if_neg hA]
      by_cases hB : code < s.minErrorCode
      · rw [if_pos hB]
        refine ⟨keep1, fun hs _ => ⟨seen, [], rfl, ?_⟩⟩
        intro x hx hxc
        have hs' : s.hasSuccessCode = false := hs
        have hmax := inv.success_none hs'
        have hout : ¬(200 ≤ code ∧ code < 300) := by
          intro hr
          apply hA
          refine ⟨hr.1, hr.2, ?_⟩
          rw [hmax]
          simp only [MaxInt32]
          omega
        have := inv.error_le x hx code hxc hout
        omega
      · rw [if_neg hB]
        exact ⟨keep1, keep2⟩

theorem minFirst_foldl (negotiator : statusCodeNegotiator) (intSize : Nat) (rest : List String) :
    ∀ (seen : List String) (s : MinState), MinInv negotiator intSize seen s →
      MinFirst negotiator intSize seen s →
      MinFirst negotiator intSize (seen ++ rest) (rest.foldl (negotiator.minStep intSize) s) := by
  induction rest with
  | nil => intro seen s _ h; simpa using h
  | cons key rest ih =>
    intro seen s inv h
    have := ih (seen ++ [key]) _ (minInv_step negotiator intSize seen s key inv)
      (minFirst_step negotiator intSize seen s key inv h)
    simpa using this

/-- The state in which the loop ends holds, for each tracker that decides the
result, the first key that parses to the tracked code. -/
theorem minFirst_final (negotiator : statusCodeNegotiator) (intSize : Nat)
    (responses : List String) :
    MinFirst negotiator intSize responses
      (responses.foldl (negotiator.minStep intSize) MinState.init) := by
  have h0 : MinFirst negotiator intSize [] MinState.init :=
    ⟨fun h => by simp [MinState.init] at h, fun _ h => by simp [MinState.init] at h⟩
  simpa using minFirst_foldl negotiator intSize responses [] _
    (minInv_init negotiator intSize) h0

/-- C16: tie-breaking in the deterministic policy. For every enumeration order,
a result without error returns the first key of the order that parses to the
returned code: every key before it parses to another code or not at all, so a
later key with an equal code never replaces it. -/
theorem deterministic_returns_first_key_of_code (intSize : Nat) (order : List String)
    (h : ((NewStatusCodeNegotiator false).minSuccessOrErrorCode intSize order).err = none) :
    ∃ pre post,
      order = pre ++
        ((NewStatusCodeNegotiator false).minSuccessOrErrorCode intSize order).key :: post ∧
      (NewStatusCodeNegotiator false).parseStatusCode intSize
        ((NewStatusCodeNegotiator false).minSuccessOrErrorCode intSize order).key =
        some ((NewStatusCodeNegotiator false).minSuccessOrErrorCode intSize order).code ∧
      ∀ x ∈ pre, (NewStatusCodeNegotiator false).parseStatusCode intSize x ≠
        some ((NewStatusCodeNegotiator false).minSuccessOrErrorCode intSize order).code := by
  have hparse := (minSuccessOrErrorCode_ok _ intSize order h).2
  have first := minFirst_final (NewStatusCodeNegotiator false) intSize order
  unfold statusCodeNegotiator.minSuccessOrErrorCode MinState.result at h hparse ⊢
  cases hs : (order.foldl ((NewStatusCodeNegotiator false).minStep intSize)
      MinState.init).hasSuccessCode with
  | true =>
    rw [hs] at hparse
    simp only [if_true] at hparse ⊢
    obtain ⟨pre, post, e, hpre⟩ := first.success_first hs
    exact ⟨pre, post, e, hparse, hpre⟩
  | false =>
    cases he : (order.foldl ((NewStatusCodeNegotiator false).minStep intSize)
        MinState.init).hasErrorCode with
    | true =>
      rw [hs, he] at hparse
      simp only [Bool.false_eq_true, if_false, if_true] at hparse ⊢
      obtain ⟨pre, post, e, hpre⟩ := first.error_first hs he
      exact ⟨pre, post, e, hparse, hpre⟩
    | false =>
      simp [hs, he, noMatchingResponse] at h

/-- Witness of C16 on the order `404`, `2xx`, `200`, `2XX`: three keys parse to the
returned code 200 and the first of them, `2xx`, is returned. -/
theorem deterministic_returns_first_key_of_code_witness :
    (NewStatusCodeNegotiator false).minSuccessOrErrorCode 64 ["404", "2xx", "200", "2XX"] =
      ⟨"2xx", 200, none⟩ ∧
    ∃ pre post,
      ["404", "2xx", "200", "2XX"] = pre ++
        ((NewStatusCodeNegotiator false).minSuccessOrErrorCode 64
          ["404", "2xx", "200", "2XX"]).key :: post ∧
      (NewStatusCodeNegotiator false).parseStatusCode 64
        ((NewStatusCodeNegotiator false).minSuccessOrErrorCode 64
          ["404", "2xx", "200", "2XX"]).key =
        some ((NewStatusCodeNegotiator false).minSuccessOrErrorCode 64
          ["404", "2xx", "200", "2XX"]).code ∧
      ∀ x ∈ pre, (NewStatusCodeNegotiator false).parseStatusCode 64 x ≠
        some ((NewStatusCodeNegotiator false).minSuccessOrErrorCode 64
          ["404", "2xx", "200", "2XX"]).code :=
  ⟨by decide, deterministic_returns_first_key_of_code 64 ["404", "2xx", "200", "2XX"]
    (by decide)⟩

theorem minSim_step (negotiator : statusCodeNegotiator) (intSize : Nat) (s t : MinState)
    (key : String) (h : MinSim s t) :
    MinSim (negotiator.minStep intSize s key) (negotiator.minStepSeparate intSize t key) := by
  obtain ⟨sc, sk, sf, ec, ek, ef⟩ := s
  obtain ⟨sc', sk', sf', ec', ek', ef'⟩ := t
  obtain ⟨h1, h2, h3, h4, h5⟩ := h
  simp only at h1 h2 h3 h4 h5
  subst h1 h2 h3
  unfold statusCodeNegotiator.minStep statusCodeNegotiator.minStepSeparate
  cases hp : negotiator.parseStatusCode intSize key with
  | none => exact ⟨rfl, rfl, rfl, h4, h5⟩
  | some code =>
    simp only
    cases sf with
    | true =>
      split_ifs <;>
        first
        | (exfalso; omega)
        | (refine ⟨rfl, rfl, rfl, ?_, ?_⟩ <;> intro hf <;> cases hf)
    | false =>
      have hmax := h4 rfl
      obtain ⟨e1, e2, e3⟩ := h5 rfl
      simp only [MaxInt32] at hmax
      subst hmax e1 e2 e3
      split_ifs <;>
        first
        | (exfalso; omega)
        | (refine ⟨rfl, rfl, rfl, ?_, ?_⟩ <;> intro hf <;>
            first
            | rfl
            | exact ⟨rfl, rfl, rfl⟩
            | cases hf)

theorem minSim_foldl (negotiator : statusCodeNegotiator) (intSize : Nat) (keys : List String) :
    ∀ s t : MinState, MinSim s t →
      MinSim (keys.foldl (negotiator.minStep intSize) s)
        (keys.foldl (negotiator.minStepSeparate intSize) t) := by
  induction keys with
  | nil => intro s t h; exact h
  | cons key rest ih =>
    intro s t h
    exact ih _ _ (minSim_step negotiator intSize s t key h)

/-- Two related final states give the same result. -/
theorem minSim_result (s t : MinState) (h : MinSim s t) : s.result = t.result := by
  obtain ⟨sc, sk, sf, ec, ek, ef⟩ := s
  obtain ⟨sc', sk', sf', ec', ek', ef'⟩ := t
  obtain ⟨h1, h2, h3, _, h5⟩ := h
  simp only at h1 h2 h3 h5
  subst h1 h2 h3
  unfold MinState.result
  cases sf with
  | true => rfl
  | false =>
    obtain ⟨e1, e2, e3⟩ := h5 rfl
    subst e1 e2 e3
    rfl

/-- C18: in the deterministic scan a code in `[200, 300)` that is not a new
success minimum falls through to the else-branch and can overwrite the other
tracker (after `200`, `201` the loop holds `201` there, its variant nothing); the
outcome never changes: for every enumeration order `minSuccessOrErrorCode`
returns the same key, code and error as the variant whose else-branch is taken
only for codes outside `[200, 300)`. -/
theorem fallthrough_keeps_outcome :
    ((["200", "201"].foldl ((NewStatusCodeNegotiator false).minStep 64)
        MinState.init).minErrorCodeKey = "201" ∧
      (["200", "201"].foldl ((NewStatusCodeNegotiator false).minStepSeparate 64)
        MinState.init).minErrorCodeKey = "") ∧
    ∀ (intSize : Nat) (order : List String),
      (NewStatusCodeNegotiator false).minSuccessOrErrorCode intSize order =
        (NewStatusCodeNegotiator false).minSuccessOrErrorCodeSeparate intSize order := by
  refine ⟨⟨by decide, by decide⟩, ?_⟩
  intro intSize order
  have h0 : MinSim MinState.init MinState.init :=
    ⟨rfl, rfl, rfl, fun _ => rfl, fun _ => ⟨rfl, rfl, rfl⟩⟩
  exact minSim_result _ _ (minSim_foldl _ intSize order _ _ h0)

end Negotiator
